import Mathlib

/-!
Verification of the ABNF railroad-diagram generator.

This file gives a shallow embedding of the core pipeline of the
repository: the ABNF tokenizer and recursive-descent parser
(src/abnf-parser.js, the version with the tokenizer producing
elements-array AST nodes), the AST transformer
(src/ast-transformer.js), the layout pass of the element classes
(src/sequence-element.js, the StackElement, BypassElement and
LoopElement classes, and the text-box leaf), and the turtle-graphics
track builder (src/track-builder.js).

Modelling conventions:
* JavaScript numbers that can become negative infinity or NaN during
  layout (Math.max of an empty spread, the remainder of a non-finite
  value) are modelled by the type JNum below; widths always stay
  integral in the source, so they are modelled as Int.
* Thrown exceptions are modelled with Except.  console.assert in
  Node.js only logs and never throws, so the layout functions return
  normally regardless of the asserted condition; the asserted
  condition itself is stated and proved separately.
* The recursive-descent expression parser is given explicit fuel;
  every recursive call decreases the fuel by one, and the entry point
  supplies fuel that is generous for the input length.  Statements
  about the parser either quantify over the fuel or go through the
  fuel-supplying entry points.
-/

namespace Railroad

/-- JavaScript numeric values arising in the layout pass: an ordinary
integer, negative infinity (Math.max of an empty argument list), or
NaN (the remainder of a non-finite value). -/
inductive JNum where
  | nan : JNum
  | negInf : JNum
  | int : Int → JNum
deriving DecidableEq, Repr

namespace JNum

/-- Addition of JavaScript numbers as used by the layout pass: NaN is
absorbing and negative infinity absorbs every integer. -/
def jadd : JNum → JNum → JNum
  | nan, _ => nan
  | _, nan => nan
  | negInf, _ => negInf
  | _, negInf => negInf
  | int a, int b => int (a + b)

/-- Math.max on two JavaScript numbers: NaN is absorbing and negative
infinity is the identity. -/
def jmax : JNum → JNum → JNum
  | nan, _ => nan
  | _, nan => nan
  | negInf, b => b
  | a, negInf => a
  | int a, int b => int (max a b)

/-- Math.max over a spread list, folding from the empty default
negative infinity, exactly as Math.max with no arguments returns
negative infinity. -/
def jmaxList (l : List JNum) : JNum := l.foldl jmax negInf

/-- The JavaScript remainder by 2.  On integers the remainder keeps
the sign of the dividend (truncating division); on non-finite values
it is NaN. -/
def jmod2 : JNum → JNum
  | int a => int (a.tmod 2)
  | _ => nan

end JNum

/-- Computed layout dimensions of a shape, in grid units.  In the
source these are the width, height and baseline fields populated by
the layout method.  Widths remain integral in every reachable
computation; heights and baselines can degenerate (see JNum). -/
structure Dims where
  width : Int
  height : JNum
  baseline : JNum
deriving DecidableEq, Repr

/-- Kind tag of a text-box leaf: TerminalElement or
NonterminalElement in the source. -/
inductive BoxKind where
  | terminal : BoxKind
  | nonterminal : BoxKind
deriving DecidableEq, Repr

/-- Layout element trees built by the AST transformer: the element
classes TerminalElement/NonterminalElement (both text boxes),
SequenceElement, StackElement, BypassElement and LoopElement. -/
inductive Shape where
  | textbox : String → BoxKind → Shape
  | sequence : List Shape → Shape
  | stack : List Shape → Shape
  | bypass : Shape → Shape
  | loop : Shape → Shape
deriving Repr

/-- Parser AST nodes.  The parser in src/abnf-parser.js produces the
types terminal, nonterminal, sequence, stack, bypass, loop and
repetition; the transformer in src/ast-transformer.js additionally
handles the types alternation and optional.  All child nodes sit in
an elements array.  A repetition bound is an Option Nat: none models
both the JavaScript null (unbounded) and NaN, which behave
identically in every comparison the code performs on them. -/
inductive Ast where
  | terminal : String → Ast
  | nonterminal : String → Ast
  | sequence : List Ast → Ast
  | alternation : List Ast → Ast
  | optional : List Ast → Ast
  | stack : List Ast → Ast
  | bypass : List Ast → Ast
  | loop : List Ast → Ast
  | repetition : Option Nat → Option Nat → List Ast → Ast
deriving Repr

/-! ## The AST transformer (src/ast-transformer.js)

transform maps parser AST nodes to element trees; thrown errors are
modelled with Except.  JavaScript truthiness of the text property
makes the empty string count as missing text. -/

/-- The JavaScript comparison bound > threshold, where bound is a
repetition bound: comparison against null or NaN is false. -/
def boundGT (a : Option Nat) (threshold : Nat) : Bool :=
  match a with
  | some n => threshold < n
  | none => false

/-- The JavaScript comparison max > min on two repetition bounds:
false as soon as either side is null or NaN. -/
def boundLT (a b : Option Nat) : Bool :=
  match a, b with
  | some n, some m => n < m
  | _, _ => false

/-- Branch cascade of ASTTransformer._transformRepetition, applied
after the single child has been transformed.  The branches appear in
source order; comparisons against the JavaScript null/NaN bound are
false except where modelled by boundGT/boundLT, and the strict
equality min === max agrees with Option equality (null === null is
true; the NaN === NaN disagreement cannot reach a taken branch since
every branch also requires a numeric comparison to hold). -/
def transformRepetitionShape (mn mx : Option Nat) (child : Shape) : Shape :=
  if mn = some 0 ∧ mx = none then
    .bypass (.loop child)
  else if mn = some 1 ∧ mx = none then
    .loop child
  else if boundGT mn 1 = true ∧ mx = none then
    match mn with
    | some n => .sequence (List.replicate (n - 1) child ++ [.loop child])
    | none => .loop child
  else if mn = some 0 ∧ mx = some 1 then
    .bypass child
  else if mn = mx ∧ boundGT mn 1 = true then
    match mn with
    | some n => .sequence (List.replicate n child)
    | none => .loop child
  else if mn = some 1 ∧ mx = some 1 then
    child
  else if mn = some 0 ∧ mx = some 0 then
    .sequence []
  else if mn = some 0 ∧ boundGT mx 0 = true then
    .bypass (.loop child)
  else if boundGT mn 0 = true ∧ boundLT mn mx = true then
    if mn = some 1 then
      .loop child
    else
      match mn with
      | some n => .sequence (List.replicate (n - 1) child ++ [.loop child])
      | none => .loop child
  else
    .loop child

mutual

/-- ASTTransformer.transform from src/ast-transformer.js. -/
def transform : Ast → Except String Shape
  | .terminal t =>
      if t = "" then .error "Terminal element missing text"
      else .ok (.textbox t .terminal)
  | .nonterminal t =>
      if t = "" then .error "Nonterminal element missing text"
      else .ok (.textbox t .nonterminal)
  | .sequence els =>
      if els.isEmpty then .error "Sequence element missing elements array"
      else do
        let cs ← transformList els
        .ok (.sequence cs)
  | .alternation els =>
      if els.isEmpty then .error "Alternation element missing elements array"
      else do
        let cs ← transformList els
        .ok (.stack cs)
  | .optional els =>
      match els with
      | [e] => do
          let c ← transform e
          .ok (.bypass c)
      | _ => .error "Optional element missing single child element"
  | .repetition mn mx els =>
      match els with
      | [e] => do
          let child ← transform e
          .ok (transformRepetitionShape mn mx child)
      | _ => .error "Repetition element missing single child element"
  | .stack _ => .error "Unknown element type: stack"
  | .bypass _ => .error "Unknown element type: bypass"
  | .loop _ => .error "Unknown element type: loop"

/-- Elementwise transformation of a child array; the first failing
child aborts, as the thrown exception aborts Array.prototype.map. -/
def transformList : List Ast → Except String (List Shape)
  | [] => .ok []
  | a :: rest => do
      let c ← transform a
      let cs ← transformList rest
      .ok (c :: cs)

end

/-! ## The layout pass

Layout computes width/height/baseline bottom-up.  The text-box leaf
is parameterised by an injected text-measurement function giving the
measured width already converted to grid units (the ceiling of the
pixel width divided by the grid size); the source file
text-box-element.js is not part of the snapshot, so the leaf formula
is modelled from the spec (see textboxDims). -/

/-- Modelled from the spec: the layout of the missing
text-box-element.js leaf (TerminalElement/NonterminalElement base
class).  Per spec section 4.4: measure the display text, convert to
grid units, add 2 units of padding, round up to the next even number,
minimum 4; height 2, baseline 1.  The measure argument is the
measured text width in grid units. -/
def textboxDims (measure : String → Nat) (text : String) : Dims :=
  let minWidth : Nat := measure text + 2
  { width := (max 4 (minWidth + minWidth % 2) : Nat)
    height := .int 2
    baseline := .int 1 }

mutual

/-- The layout methods of the element classes, as a bottom-up pure
function.  SequenceElement.layout (src/sequence-element.js),
StackElement.layout (the StackElement class), BypassElement.layout
and LoopElement.layout.  Reading a property of children[0] of an
empty stack throws a TypeError, hence the error case; console.assert
never throws, so no other case fails. -/
def layout (measure : String → Nat) : Shape → Except String Dims
  | .textbox t _ => .ok (textboxDims measure t)
  | .sequence cs => do
      let ds ← layoutList measure cs
      .ok { width := (ds.map Dims.width).sum + ((cs.length : Int) - 1) * 2
            height := JNum.jmaxList (ds.map Dims.height)
            baseline := JNum.jmaxList (ds.map Dims.baseline) }
  | .stack cs => do
      let ds ← layoutList measure cs
      match ds with
      | [] => .error "TypeError: cannot read properties of undefined"
      | d0 :: rest =>
          let maxWidth : Int := (rest.map Dims.width).foldl max d0.width
          let totalHeight : JNum :=
            rest.foldl (fun acc d => (acc.jadd (.int 1)).jadd d.height) d0.height
          .ok { width := 2 + maxWidth + 2
                height := totalHeight.jadd totalHeight.jmod2
                baseline := d0.baseline }
  | .bypass c => do
      let d ← layout measure c
      .ok { width := d.width + 4
            height := d.height.jadd (.int 1)
            baseline := d.baseline.jadd (.int 1) }
  | .loop c => do
      let d ← layout measure c
      .ok { width := d.width + 4
            height := d.height.jadd (.int 1)
            baseline := d.baseline.jadd (.int 1) }

/-- Layout of a child array, in order. -/
def layoutList (measure : String → Nat) : List Shape → Except String (List Dims)
  | [] => .ok []
  | s :: rest => do
      let d ← layout measure s
      let ds ← layoutList measure rest
      .ok (d :: ds)

end

mutual

/-- All nodes of a shape tree, the root included. -/
def subShapes : Shape → List Shape
  | .textbox t k => [.textbox t k]
  | .sequence cs => .sequence cs :: subShapesList cs
  | .stack cs => .stack cs :: subShapesList cs
  | .bypass c => .bypass c :: subShapes c
  | .loop c => .loop c :: subShapes c

/-- All nodes of a forest of shape trees. -/
def subShapesList : List Shape → List Shape
  | [] => []
  | s :: rest => subShapes s ++ subShapesList rest

end

/-- The layout invariant of spec section 8: even width, integral
height at least 2, and an integral baseline within the height. -/
def invD (d : Dims) : Prop :=
  d.width % 2 = 0 ∧
    ∃ h b : Int, d.height = .int h ∧ d.baseline = .int b ∧
      2 ≤ h ∧ 0 ≤ b ∧ b < h

/-- Boolean form of the layout invariant. -/
def invB (d : Dims) : Bool :=
  d.width % 2 == 0 &&
    (match d.height, d.baseline with
     | .int h, .int b => 2 ≤ h && 0 ≤ b && b < h
     | _, _ => false)

/-! ## The tokenizer (class ABNFTokenizer in src/abnf-parser.js)

The token regular expression is an ordered alternation of named
groups; the first group that matches at the current position wins and
each group is a deterministic greedy pattern, so every group is
modelled by a maximal-munch matcher returning the matched length.
The global exec loop of tokenize skips positions no group matches;
since the whitespace group matches every whitespace character, every
skipped character is non-whitespace, so the gap check of tokenize
fails exactly when some position has no match.  The model therefore
reports a lexical error as soon as no group matches.  Only the
position of a lexical error is modelled, not its message text. -/

/-- Token types: the named groups of the token regular expression. -/
inductive TokType where
  | whitespace | comment | string | sstring | hexval | decval
  | repetition | asterisk | identifier | assign | alternation
  | lparen | rparen | lbracket | rbracket | number
deriving DecidableEq, Repr

/-- A token as produced by ABNFTokenizer.tokenize: type, source text,
and 1-based line/column of its first character. -/
structure Token where
  type : TokType
  value : String
  line : Nat
  column : Nat
deriving DecidableEq, Repr

/-- Position of a lexical error (the thrown Error of tokenize). -/
structure LexErr where
  line : Nat
  column : Nat
deriving DecidableEq, Repr

/-- Characters of the JavaScript whitespace class, restricted to the
ASCII range (the Unicode space characters never appear in the
grammars considered). -/
def jsWhitespace (c : Char) : Bool :=
  c = ' ' ∨ c = '\t' ∨ c = '\n' ∨ c = '\r' ∨ c = '\x0b' ∨ c = '\x0c'

/-- Length of the maximal run of characters satisfying p. -/
def runLength (p : Char → Bool) (cs : List Char) : Nat :=
  (cs.takeWhile p).length

/-- Hexadecimal digit class of the hexval group. -/
def isHexDigitChar (c : Char) : Bool :=
  c.isDigit ∨ ('a' ≤ c ∧ c ≤ 'f') ∨ ('A' ≤ c ∧ c ≤ 'F')

/-- Matcher for the whitespace group. -/
def matchWhitespace (cs : List Char) : Option Nat :=
  let n := runLength jsWhitespace cs
  if n = 0 then none else some n

/-- Matcher for the comment group: a semicolon followed by everything
up to the line end. -/
def matchComment : List Char → Option Nat
  | ';' :: rest => some (1 + runLength (fun c => ¬(c = '\r' ∨ c = '\n')) rest)
  | _ => none

/-- Matcher for a quoted run: the given quote character, a maximal
run of non-quote characters, and the closing quote.  none when the
closing quote is missing. -/
def matchQuoted (q : Char) (cs : List Char) : Option Nat :=
  match cs with
  | c :: rest =>
      if c = q then
        let n := runLength (fun d => ¬ d = q) rest
        if (rest.drop n).isEmpty then none else some (n + 2)
      else none
  | [] => none

/-- The apostrophe character (code point 39) delimiting sstring
tokens. -/
def singleQuote : Char := Char.ofNat 39

/-- Matcher for the string group: optional case-sensitivity two-byte
marker, then a double-quoted run. -/
def matchString (cs : List Char) : Option Nat :=
  match cs with
  | '%' :: c :: rest =>
      if c = 's' ∨ c = 'i' then (matchQuoted '\"' rest).map (· + 2) else none
  | _ => matchQuoted '\"' cs

/-- Matcher for the sstring group: optional case-sensitivity marker,
then a single-quoted run. -/
def matchSString (cs : List Char) : Option Nat :=
  match cs with
  | '%' :: c :: rest =>
      if c = 's' ∨ c = 'i' then (matchQuoted singleQuote rest).map (· + 2) else none
  | _ => matchQuoted singleQuote cs

/-- Worker for dotGroups; the fuel only bounds the recursion and
every group consumes at least two characters, so the fuel supplied by
dotGroups never runs out. -/
def dotGroupsGo (digit : Char → Bool) : Nat → List Char → Nat
  | 0, _ => 0
  | fuel + 1, cs =>
      match cs with
      | '.' :: rest =>
          let n := runLength digit rest
          if n = 0 then 0 else (1 + n) + dotGroupsGo digit fuel (rest.drop n)
      | _ => 0

/-- Length of the dotted-concatenation extension of a value token: a
maximal run of groups, each a dot followed by at least one digit of
the given class.  Zero when no group matches. -/
def dotGroups (digit : Char → Bool) (cs : List Char) : Nat :=
  dotGroupsGo digit (cs.length + 1) cs

/-- Length of the optional extension of a value token: one or more
dotted groups, else a dash range, else nothing. -/
def valueExtension (digit : Char → Bool) (cs : List Char) : Nat :=
  let d := dotGroups digit cs
  if d ≠ 0 then d
  else
    match cs with
    | '-' :: rest =>
        let n := runLength digit rest
        if n = 0 then 0 else 1 + n
    | _ => 0

/-- Matcher for the hexval group. -/
def matchHexval (cs : List Char) : Option Nat :=
  match cs with
  | '%' :: 'x' :: rest =>
      let n := runLength isHexDigitChar rest
      if n = 0 then none
      else some (2 + n + valueExtension isHexDigitChar (rest.drop n))
  | _ => none

/-- Matcher for the decval group. -/
def matchDecval (cs : List Char) : Option Nat :=
  match cs with
  | '%' :: 'd' :: rest =>
      let n := runLength Char.isDigit rest
      if n = 0 then none
      else some (2 + n + valueExtension Char.isDigit (rest.drop n))
  | _ => none

/-- Matcher for the repetition-count group, the ordered alternation
of digits-star-digits (first branch, digits required before the star)
and star-digits (second branch, digits required after). -/
def matchRepetition (cs : List Char) : Option Nat :=
  if runLength Char.isDigit cs ≠ 0 then
    match cs.drop (runLength Char.isDigit cs) with
    | '*' :: rest =>
        some (runLength Char.isDigit cs + 1 + runLength Char.isDigit rest)
    | _ => none
  else
    match cs with
    | '*' :: rest =>
        if runLength Char.isDigit rest = 0 then none
        else some (1 + runLength Char.isDigit rest)
    | _ => none

/-- Matcher for the identifier group: a letter followed by letters,
digits and dashes. -/
def matchIdentifier : List Char → Option Nat
  | c :: rest =>
      if c.isAlpha then some (1 + runLength (fun d => d.isAlphanum ∨ d = '-') rest)
      else none
  | [] => none

/-- Matcher for the assign group: colon-equals or a bare equals. -/
def matchAssign : List Char → Option Nat
  | ':' :: '=' :: _ => some 2
  | '=' :: _ => some 1
  | _ => none

/-- Matcher for a fixed single character. -/
def matchChar (ch : Char) : List Char → Option Nat
  | c :: _ => if c = ch then some 1 else none
  | [] => none

/-- Matcher for the number group: one or more digits. -/
def matchNumber (cs : List Char) : Option Nat :=
  let n := runLength Char.isDigit cs
  if n = 0 then none else some n

/-- Pairing of a matcher result with its token type. -/
def tagTok (t : TokType) (r : Option Nat) : Option (TokType × Nat) :=
  r.map (fun n => (t, n))

/-- Ordered choice between two tagged matcher results. -/
def firstTok (a b : Option (TokType × Nat)) : Option (TokType × Nat) :=
  match a with
  | some r => some r
  | none => b

/-- The named groups of the token regular expression, in priority
order, each paired with its matcher. -/
def tokenGroups : List (TokType × (List Char → Option Nat)) :=
  [(.whitespace, matchWhitespace), (.comment, matchComment),
   (.string, matchString), (.sstring, matchSString),
   (.hexval, matchHexval), (.decval, matchDecval),
   (.repetition, matchRepetition), (.asterisk, matchChar '*'),
   (.identifier, matchIdentifier), (.assign, matchAssign),
   (.alternation, matchChar '/'), (.lparen, matchChar '('),
   (.rparen, matchChar ')'), (.lbracket, matchChar '['),
   (.rbracket, matchChar ']'), (.number, matchNumber)]

/-- The ordered alternation of the token regular expression: the
first group that matches at the current position wins. -/
def tokenAt (cs : List Char) : Option (TokType × Nat) :=
  tokenGroups.foldr (fun g acc => firstTok (tagTok g.1 (g.2 cs)) acc) none

/-- ABNFTokenizer updatePosition: advance line/column over a text
segment; a carriage return directly followed by a line feed counts
for nothing itself, the line feed right after it advancing the
line. -/
def updatePos : List Char → Nat → Nat → Nat × Nat
  | [], line, col => (line, col)
  | c :: rest, line, col =>
      if c = '\n' then updatePos rest (line + 1) 1
      else if c = '\r' then
        match rest with
        | '\n' :: _ => updatePos rest line col
        | _ => updatePos rest (line + 1) 1
      else updatePos rest line (col + 1)

/-- The exec loop of ABNFTokenizer.tokenize.  Whitespace and comment
tokens advance the position but are not emitted.  The fuel only
bounds the recursion; every match consumes at least one character, so
the fuel supplied by tokenize never runs out. -/
def tokenizeGo (fuel : Nat) (cs : List Char) (line col : Nat)
    (acc : List Token) : Except LexErr (List Token) :=
  match fuel with
  | 0 => .error { line := 0, column := 0 }
  | fuel + 1 =>
      match cs with
      | [] => .ok acc.reverse
      | _ =>
          match tokenAt cs with
          | none => .error { line := line, column := col }
          | some (ty, len) =>
              let text := cs.take len
              let (line2, col2) := updatePos text line col
              let acc2 :=
                if ty = .whitespace ∨ ty = .comment then acc
                else { type := ty, value := String.mk text
                       line := line, column := col } :: acc
              tokenizeGo fuel (cs.drop len) line2 col2 acc2

/-- ABNFTokenizer.tokenize. -/
def tokenize (s : String) : Except LexErr (List Token) :=
  tokenizeGo (s.length + 1) s.toList 1 1 []

/-! ## The parser (class ABNFParser in src/abnf-parser.js)

The recursive-descent expression parser is modelled with a list
cursor in place of the index into the token array, and with explicit
fuel; every recursive call decreases the fuel by one and the entry
point parseTokenSequence supplies fuel that more than covers the
recursion depth, which advances the cursor at every level.  All
errors thrown by the parser are ABNFParseError values, so the
catch clause of the rule loop always re-throws unchanged. -/

/-- An ABNFParseError value: base message, optional 1-based position
and optional offending token (the formatted message text is not
modelled). -/
structure ParseErr where
  msg : String
  line : Option Nat
  column : Option Nat
  token : Option Token
deriving DecidableEq, Repr

/-- Printed name of a token type, as interpolated into the
unexpected-token message. -/
def typeName : TokType → String
  | .whitespace => "whitespace" | .comment => "comment"
  | .string => "string" | .sstring => "sstring"
  | .hexval => "hexval" | .decval => "decval"
  | .repetition => "repetition" | .asterisk => "asterisk"
  | .identifier => "identifier" | .assign => "assign"
  | .alternation => "alternation" | .lparen => "lparen"
  | .rparen => "rparen" | .lbracket => "lbracket"
  | .rbracket => "rbracket" | .number => "number"

/-- A parse error without position information. -/
def bareErr (m : String) : ParseErr :=
  { msg := m, line := none, column := none, token := none }

/-- A parse error carrying a token and its position. -/
def tokErr (m : String) (t : Token) : ParseErr :=
  { msg := m, line := some t.line, column := some t.column, token := some t }

/-- Sentinel for fuel exhaustion; unreachable for the fuel supplied
by the entry points. -/
def fuelErr : ParseErr := bareErr "out of fuel"

/-- JavaScript parseInt on a token value: the leading digit run, or
none for NaN when there is no leading digit.  Token values never
carry signs or leading whitespace. -/
def jsParseInt (s : String) : Option Nat :=
  let ds := s.toList.takeWhile Char.isDigit
  if ds.isEmpty then none
  else some (ds.foldl (fun acc c => acc * 10 + (c.toNat - '0'.toNat)) 0)

/-- The regular-expression match digits-star-digits applied to a
repetition token value in _parseRepetition: the first pair component
is min (0 when the first digit group is empty), the second is max
(null when the second digit group is empty).  A value not matching
the expression leaves both bounds null. -/
def parseRepMatch (s : String) : Option Nat × Option Nat :=
  let cs := s.toList
  let d1 := cs.takeWhile Char.isDigit
  match cs.drop d1.length with
  | '*' :: rest =>
      if rest.all Char.isDigit then
        ((if d1.isEmpty then some 0 else jsParseInt (String.mk d1)),
         (if rest.isEmpty then none else jsParseInt (String.mk rest)))
      else (none, none)
  | _ => (none, none)

/-- The repetition-count recognition at the start of
_parseRepetition: whether a repetition was found, the min and max
bounds, and the remaining tokens.  A number token not followed by a
token of value star is an exact count. -/
def repCountHead (ts : List Token) :
    Bool × Option Nat × Option Nat × List Token :=
  match ts with
  | tok :: rest =>
      if tok.type = .repetition then
        let (mn, mx) := parseRepMatch tok.value
        (true, mn, mx, rest)
      else if tok.type = .asterisk then
        (true, some 0, none, rest)
      else if tok.type = .number then
        let n := jsParseInt tok.value
        match rest with
        | t2 :: rest2 =>
            if t2.value = "*" then (true, n, none, rest2)
            else (true, n, n, rest)
        | [] => (true, n, n, rest)
      else (false, none, none, ts)
  | [] => (false, none, none, ts)

/-- The wrap applied by _parseRepetition once a repetition count was
recognised, in source branch order; no branch applies to the
remaining bound combinations and the element is returned bare. -/
def applyRepetition (mn mx : Option Nat) (e : Ast) : Ast :=
  if mn = some 0 ∧ mx = none then .loop [e]
  else if mn = some 1 ∧ mx = none then .sequence [e, .loop [e]]
  else if mn = some 0 ∧ mx = some 1 then .bypass [e]
  else if mn = mx ∧ boundGT mn 1 = true then .repetition mn mx [e]
  else e

mutual

/-- ABNFParser._parseExpression. -/
def parseExpression : Nat → List Token → Except ParseErr (Ast × List Token)
  | 0, _ => .error fuelErr
  | fuel + 1, ts => parseAlternation fuel ts

/-- ABNFParser._parseAlternation: a concatenation followed by any
number of slash-separated concatenations; more than one branch forms
a stack node. -/
def parseAlternation : Nat → List Token → Except ParseErr (Ast × List Token)
  | 0, _ => .error fuelErr
  | fuel + 1, ts => do
      let (e, rest) ← parseConcatenation fuel ts
      let (alts, rest2) ← parseAlternationGo fuel rest [e]
      match alts with
      | [e0] => .ok (e0, rest2)
      | _ => .ok (.stack alts, rest2)

/-- The while loop of _parseAlternation. -/
def parseAlternationGo : Nat → List Token → List Ast →
    Except ParseErr (List Ast × List Token)
  | 0, _, _ => .error fuelErr
  | fuel + 1, ts, alts =>
      match ts with
      | tok :: rest =>
          if tok.type = .alternation then do
            let (e, rest2) ← parseConcatenation fuel rest
            parseAlternationGo fuel rest2 (alts ++ [e])
          else .ok (alts, ts)
      | [] => .ok (alts, ts)

/-- ABNFParser._parseConcatenation: repetition-prefixed elements up
to an alternation bar or a closing delimiter; more than one element
forms a sequence node, none at all is an error. -/
def parseConcatenation : Nat → List Token → Except ParseErr (Ast × List Token)
  | 0, _ => .error fuelErr
  | fuel + 1, ts => do
      let (els, rest) ← parseConcatenationGo fuel ts []
      match els with
      | [] =>
          match rest with
          | tok :: _ => .error (tokErr "Empty expression" tok)
          | [] => .error (bareErr "Empty expression")
      | [e] => .ok (e, rest)
      | _ => .ok (.sequence els, rest)

/-- The while loop of _parseConcatenation. -/
def parseConcatenationGo : Nat → List Token → List Ast →
    Except ParseErr (List Ast × List Token)
  | 0, _, _ => .error fuelErr
  | fuel + 1, ts, acc =>
      match ts with
      | [] => .ok (acc, ts)
      | tok :: _ =>
          if tok.type = .alternation ∨ tok.type = .rparen ∨ tok.type = .rbracket then
            .ok (acc, ts)
          else do
            let (e, rest) ← parseRepetition fuel ts
            parseConcatenationGo fuel rest (acc ++ [e])

/-- ABNFParser._parseRepetition: an optional repetition count, the
element, and the wrap of applyRepetition. -/
def parseRepetition : Nat → List Token → Except ParseErr (Ast × List Token)
  | 0, _ => .error fuelErr
  | fuel + 1, ts => do
      let (hasRep, mn, mx, ts2) := repCountHead ts
      let (e, rest) ← parseElement fuel ts2
      if hasRep then .ok (applyRepetition mn mx e, rest)
      else .ok (e, rest)

/-- ABNFParser._parseElement: terminals, nonterminals, groups and
optionals.  A missing closing delimiter is an error carrying the
position of the opening token. -/
def parseElement : Nat → List Token → Except ParseErr (Ast × List Token)
  | 0, _ => .error fuelErr
  | fuel + 1, ts =>
      match ts with
      | [] => .error (bareErr "Unexpected end of input")
      | tok :: rest =>
          match tok.type with
          | .string => .ok (.terminal tok.value, rest)
          | .sstring => .ok (.terminal tok.value, rest)
          | .identifier => .ok (.nonterminal tok.value, rest)
          | .hexval => .ok (.terminal tok.value, rest)
          | .decval => .ok (.terminal tok.value, rest)
          | .lparen => do
              let (e, rest2) ← parseExpression fuel rest
              match rest2 with
              | t2 :: rest3 =>
                  if t2.type = .rparen then .ok (e, rest3)
                  else .error (tokErr "Missing closing parenthesis" tok)
              | [] => .error (tokErr "Missing closing parenthesis" tok)
          | .lbracket => do
              let (e, rest2) ← parseExpression fuel rest
              match rest2 with
              | t2 :: rest3 =>
                  if t2.type = .rbracket then .ok (.bypass [e], rest3)
                  else .error (tokErr "Missing closing bracket" tok)
              | [] => .error (tokErr "Missing closing bracket" tok)
          | other => .error (tokErr ("Unexpected token: " ++ typeName other) tok)

end

/-- ABNFParser._parseTokenSequence: fail on an empty rule body, parse
the expression, and discard any unconsumed trailing tokens, exactly
as the source reads only the element field of the result. -/
def parseTokenSequence (ts : List Token) : Except ParseErr Ast :=
  if ts.isEmpty then .error (bareErr "Empty rule definition")
  else (parseExpression (8 * ts.length + 8) ts).map (fun r => r.1)

/-- Number of tokens ABNFParser._extractRuleTokens collects before
the next rule header (an identifier directly followed by an
assignment token) or the end of the stream. -/
def extractCount : List Token → Nat
  | a :: b :: rest =>
      if a.type = .identifier ∧ b.type = .assign then 0
      else 1 + extractCount (b :: rest)
  | [_] => 1
  | [] => 0

/-- ABNFParser._extractRuleTokens, as the split of the stream at
extractCount: the tokens of the current rule and the remaining
stream. -/
def extractRuleTokens (ts : List Token) : List Token × List Token :=
  (ts.take (extractCount ts), ts.drop (extractCount ts))

/-- Absence of a rule header anywhere in a token list: no identifier
token directly followed by an assignment token.  The scan of
_extractRuleTokens runs to the end of such a list. -/
def noHeaderB : List Token → Bool
  | a :: b :: rest =>
      !(a.type == .identifier && b.type == .assign) && noHeaderB (b :: rest)
  | _ => true

/-- A parsed rule as stored in the rules map: rule name, the
reconstructed original definition text, and the AST. -/
structure ParsedRule where
  name : String
  original : String
  expression : Ast
deriving Repr

/-- JavaScript Map.set on the rules map, modelled on an ordered
association list: an existing key keeps its position and gets the new
value, a new key is appended. -/
def mapSet (m : List (String × ParsedRule)) (k : String) (v : ParsedRule) :
    List (String × ParsedRule) :=
  match m with
  | [] => [(k, v)]
  | (k0, v0) :: rest =>
      if k0 = k then (k0, v) :: rest else (k0, v0) :: mapSet rest k v

/-- Splitting of a character list at every occurrence of a
separator character; an empty list gives one empty piece and a
trailing separator a trailing empty piece, as in JavaScript. -/
def splitOnChar (ch : Char) : List Char → List (List Char)
  | [] => [[]]
  | c :: rest =>
      let r := splitOnChar ch rest
      if c = ch then [] :: r
      else
        match r with
        | h :: t => (c :: h) :: t
        | [] => [[c]]

/-- JavaScript String.prototype.split on the newline character. -/
def splitLines (s : String) : List String :=
  (splitOnChar '\n' s.toList).map String.mk

/-- JavaScript String.prototype.trim, on the ASCII whitespace
range. -/
def jsTrim (s : String) : String :=
  String.mk (((s.toList.dropWhile jsWhitespace).reverse.dropWhile jsWhitespace).reverse)

/-- ABNFParser._reconstructRuleText: slice the source lines from the
rule header line to the line of the last rule token, strip the part
of the first line up to the assignment character, and trim. -/
def reconstructRuleText (originalContent : String) (startLine : Nat)
    (ruleTokens : List Token) : String :=
  match ruleTokens.getLast? with
  | none => ""
  | some last =>
      let lines := splitLines originalContent
      let endLine := last.line
      let ruleLines := (lines.drop (startLine - 1)).take
        (min endLine lines.length - (startLine - 1))
      let ruleLines2 :=
        match ruleLines with
        | [] => []
        | first :: restLines =>
            match first.toList.findIdx? (fun c => c = '=') with
            | some idx => jsTrim (String.mk (first.toList.drop (idx + 1))) :: restLines
            | none => first :: restLines
      jsTrim (String.intercalate "\n" ruleLines2)

/-- The rule loop of ABNFParser._parseTokenStream: scan for rule
headers, slice out each rule body, parse it, and store the rule under
its name, overwriting any earlier rule of the same name.  Parse
errors abort the whole scan (the catch clause re-throws every
ABNFParseError unchanged). -/
def parseTokenStreamGo (content : String) :
    Nat → List Token → List (String × ParsedRule) →
    Except ParseErr (List (String × ParsedRule))
  | 0, _, _ => .error fuelErr
  | _ + 1, [], rules => .ok rules
  | fuel + 1, t1 :: ts, rules =>
      match ts with
      | t2 :: rest =>
          if t1.type = .identifier ∧ t2.type = .assign then
            match parseTokenSequence (extractRuleTokens rest).1 with
            | .ok e =>
                parseTokenStreamGo content fuel (extractRuleTokens rest).2
                  (mapSet rules t1.value
                    { name := t1.value
                      original := reconstructRuleText content t1.line
                        (extractRuleTokens rest).1
                      expression := e })
            | .error err => .error err
          else parseTokenStreamGo content fuel ts rules
      | [] => .ok rules

/-- ABNFParser._parseTokenStream.  The fuel only bounds the scan;
every iteration consumes at least one token, so the supplied fuel
never runs out. -/
def parseTokenStream (tokens : List Token) (content : String) :
    Except ParseErr (List (String × ParsedRule)) :=
  parseTokenStreamGo content (tokens.length + 1) tokens []

/-- A user-facing error of the parse entry point: the plain Error of
the tokenizer or an ABNFParseError of the parser. -/
inductive AbnfError where
  | lexError : LexErr → AbnfError
  | parseError : ParseErr → AbnfError
deriving DecidableEq, Repr

/-- ABNFParser.parse: tokenize the whole content, then scan the token
stream for rules. -/
def parse (content : String) : Except AbnfError (List (String × ParsedRule)) :=
  match tokenize content with
  | .error e => .error (.lexError e)
  | .ok ts =>
      match parseTokenStream ts content with
      | .ok rules => .ok rules
      | .error e => .error (.parseError e)

/-- JavaScript Map.get on the rules map. -/
def mapGet (m : List (String × ParsedRule)) (k : String) : Option ParsedRule :=
  match m with
  | [] => none
  | (k0, v0) :: rest => if k0 = k then some v0 else mapGet rest k

/-! ## The track builder (src/track-builder.js) -/

/-- The four cardinal headings of the turtle. -/
inductive Direction where
  | north | south | east | west
deriving DecidableEq, Repr

/-- SVG path commands, modelled structurally; coordinates are in
pixels (grid units multiplied by the grid size), as pushed into the
pathCommands array.  The arc fields mirror the SVG arc command in
order: the two radii, the x-axis rotation, the large-arc flag, the
sweep flag, and the end point. -/
inductive PathCmd where
  | move : Int → Int → PathCmd
  | line : Int → Int → PathCmd
  | arc : Nat → Nat → Nat → Nat → Nat → Int → Int → PathCmd
deriving DecidableEq, Repr

/-- The mutable state of a TrackBuilder: grid size, current grid
position, current heading, accumulated path commands, and whether a
path has been started. -/
structure TrackBuilderState where
  gridSize : Nat
  x : Int
  y : Int
  dir : Direction
  pathCommands : List PathCmd
  isStarted : Bool
deriving DecidableEq, Repr

namespace TrackBuilder

/-- TrackBuilder._getDirectionDelta: unit vector of a heading (y
grows downward). -/
def delta : Direction → Int × Int
  | .north => (0, -1)
  | .south => (0, 1)
  | .east => (1, 0)
  | .west => (-1, 0)

/-- TrackBuilder._turnLeft on headings (90 degrees counterclockwise
on screen). -/
def turnLeftDir : Direction → Direction
  | .north => .west
  | .west => .south
  | .south => .east
  | .east => .north

/-- TrackBuilder._turnRight on headings (90 degrees clockwise on
screen). -/
def turnRightDir : Direction → Direction
  | .north => .east
  | .east => .south
  | .south => .west
  | .west => .north

/-- The arcTransitions table of TrackBuilder._addArcTransition: the
precomputed sweep flag for each of the 8 ordered pairs of
perpendicular headings; none for the 8 remaining pairs, for which the
source throws. -/
def sweepFor : Direction → Direction → Option Nat
  | .east, .north => some 0
  | .east, .south => some 1
  | .west, .north => some 1
  | .west, .south => some 0
  | .north, .east => some 1
  | .north, .west => some 0
  | .south, .east => some 0
  | .south, .west => some 1
  | _, _ => none

/-- TrackBuilder.start. -/
def start (s : TrackBuilderState) (x y : Int) (dir : Direction) :
    Except String TrackBuilderState :=
  if s.isStarted then .error "Path already started"
  else
    .ok { s with
          x := x, y := y, dir := dir
          pathCommands := [.move (x * s.gridSize) (y * s.gridSize)]
          isStarted := true }

/-- TrackBuilder.forward. -/
def forward (s : TrackBuilderState) (units : Int) :
    Except String TrackBuilderState :=
  if s.isStarted then
    let d := delta s.dir
    let x2 := s.x + d.1 * units
    let y2 := s.y + d.2 * units
    .ok { s with
          x := x2, y := y2
          pathCommands := s.pathCommands ++ [.line (x2 * s.gridSize) (y2 * s.gridSize)] }
  else .error "Path must be started first"

/-- TrackBuilder._addArcTransition: advance one unit in the old
heading and one unit in the new heading, and append the quarter
circle arc command with both radii equal to the grid size, no
rotation, the small-arc flag, and the precomputed sweep flag. -/
def addArcTransition (s : TrackBuilderState) (fromDir toDir : Direction) :
    Except String TrackBuilderState :=
  match sweepFor fromDir toDir with
  | none => .error "No arc transition defined"
  | some sweep =>
      let fd := delta fromDir
      let td := delta toDir
      let x2 := s.x + fd.1 + td.1
      let y2 := s.y + fd.2 + td.2
      .ok { s with
            x := x2, y := y2
            pathCommands := s.pathCommands ++
              [.arc s.gridSize s.gridSize 0 0 sweep (x2 * s.gridSize) (y2 * s.gridSize)] }

/-- TrackBuilder.turnLeft. -/
def turnLeft (s : TrackBuilderState) : Except String TrackBuilderState :=
  if s.isStarted then do
    let newDir := turnLeftDir s.dir
    let s2 ← addArcTransition s s.dir newDir
    .ok { s2 with dir := newDir }
  else .error "Path must be started first"

/-- TrackBuilder.turnRight. -/
def turnRight (s : TrackBuilderState) : Except String TrackBuilderState :=
  if s.isStarted then do
    let newDir := turnRightDir s.dir
    let s2 ← addArcTransition s s.dir newDir
    .ok { s2 with dir := newDir }
  else .error "Path must be started first"

end TrackBuilder

end Railroad

namespace Railroad

/-! ## Well-formedness predicates used by the invariant theorems -/

mutual

/-- Well-formedness of the ASTs the parser can produce, as far as the
layout invariant needs it: every repetition node carries equal bounds
of at least two (the only form _parseRepetition ever builds). -/
def astWf : Ast → Bool
  | .terminal _ => true
  | .nonterminal _ => true
  | .sequence els => astWfList els
  | .alternation els => astWfList els
  | .optional els => astWfList els
  | .stack els => astWfList els
  | .bypass els => astWfList els
  | .loop els => astWfList els
  | .repetition mn mx els =>
      (match mn, mx with
       | some a, some b => a == b && 2 ≤ a
       | _, _ => false) && astWfList els

/-- Well-formedness of every node of a child array. -/
def astWfList : List Ast → Bool
  | [] => true
  | a :: rest => astWf a && astWfList rest

end

mutual

/-- Every container node of a shape tree has at least one child;
the layout invariant holds on exactly these trees. -/
def shapeNonempty : Shape → Bool
  | .textbox _ _ => true
  | .sequence cs => !cs.isEmpty && shapeNonemptyList cs
  | .stack cs => !cs.isEmpty && shapeNonemptyList cs
  | .bypass c => shapeNonempty c
  | .loop c => shapeNonempty c

/-- Container nonemptiness over a child array. -/
def shapeNonemptyList : List Shape → Bool
  | [] => true
  | s :: rest => shapeNonempty s && shapeNonemptyList rest

end

/-! # Theorems -/

/-- The Boolean invariant checker agrees with the invariant. -/
theorem invB_iff (d : Dims) : invB d = true ↔ invD d := by
  unfold invB invD
  cases d.height <;> cases d.baseline <;> simp <;> omega

/-- Transforming a repetition node whose single child transforms
successfully yields the repetition shape cascade applied to the
transformed child. -/
theorem transform_repetition_single (mn mx : Option Nat) (e : Ast) (C : Shape)
    (h : transform e = .ok C) :
    transform (.repetition mn mx [e]) = .ok (transformRepetitionShape mn mx C) := by
  simp only [transform, h]
  rfl

/-- Row min 0, max unbounded of the repetition table. -/
theorem repShape_zero_unbounded (C : Shape) :
    transformRepetitionShape (some 0) none C = .bypass (.loop C) := by
  simp [transformRepetitionShape]

/-- Row min 1, max unbounded of the repetition table. -/
theorem repShape_one_unbounded (C : Shape) :
    transformRepetitionShape (some 1) none C = .loop C := by
  simp [transformRepetitionShape]

/-- Row min greater than one, max unbounded of the repetition
table. -/
theorem repShape_n_unbounded (C : Shape) (n : Nat) (hn : 1 < n) :
    transformRepetitionShape (some n) none C =
      .sequence (List.replicate (n - 1) C ++ [.loop C]) := by
  simp only [transformRepetitionShape, boundGT]
  split_ifs with a b c <;> simp_all <;> omega


/-- Row min 0, max 1 of the repetition table. -/
theorem repShape_zero_one (C : Shape) :
    transformRepetitionShape (some 0) (some 1) C = .bypass C := rfl

/-- Row min 1, max 1 of the repetition table. -/
theorem repShape_one_one (C : Shape) :
    transformRepetitionShape (some 1) (some 1) C = C := rfl

/-- Row min 0, max 0 of the repetition table. -/
theorem repShape_zero_zero (C : Shape) :
    transformRepetitionShape (some 0) (some 0) C = .sequence [] := rfl

/-- Row exact count greater than one of the repetition table. -/
theorem repShape_n_n (C : Shape) (n : Nat) (hn : 1 < n) :
    transformRepetitionShape (some n) (some n) C =
      .sequence (List.replicate n C) := by
  unfold transformRepetitionShape
  rw [if_neg (by simp <;> omega), if_neg (by simp <;> omega),
    if_neg (by simp [boundGT] <;> omega), if_neg (by simp <;> omega),
    if_pos ⟨rfl, by simp [boundGT] <;> omega⟩]

/-- Row min 0 with a bounded max above one of the repetition table:
the upper bound is ignored. -/
theorem repShape_zero_m (C : Shape) (m : Nat) (hm : 1 < m) :
    transformRepetitionShape (some 0) (some m) C = .bypass (.loop C) := by
  unfold transformRepetitionShape
  rw [if_neg (by simp <;> omega), if_neg (by simp <;> omega),
    if_neg (by simp [boundGT] <;> omega), if_neg (by simp <;> omega),
    if_neg (by simp [boundGT] <;> omega), if_neg (by simp <;> omega),
    if_neg (by simp <;> omega),
    if_pos ⟨rfl, by simp [boundGT] <;> omega⟩]

/-- Row min above one with a larger bounded max of the repetition
table: the upper bound is ignored. -/
theorem repShape_n_m (C : Shape) (n m : Nat) (hn : 1 < n) (hm : n < m) :
    transformRepetitionShape (some n) (some m) C =
      .sequence (List.replicate (n - 1) C ++ [.loop C]) := by
  unfold transformRepetitionShape
  rw [if_neg (by simp <;> omega), if_neg (by simp <;> omega),
    if_neg (by simp [boundGT] <;> omega), if_neg (by simp <;> omega),
    if_neg (by simp [boundGT] <;> omega), if_neg (by simp <;> omega),
    if_neg (by simp <;> omega), if_neg (by simp [boundGT] <;> omega),
    if_pos ⟨by simp [boundGT] <;> omega, by simp [boundLT] <;> omega⟩,
    if_neg (by simp <;> omega)]

/-- C1: for every Repetition AST node with the given bounds and a
successfully transformed child C, the transformer returns exactly the
composition of the repetition table of the spec: (0, unbounded) gives
Bypass(Loop(C)); (1, unbounded) gives Loop(C); (n greater than 1,
unbounded) gives a Sequence of n-1 copies of C followed by Loop(C);
(0, 1) gives Bypass(C); (1, 1) gives bare C; (0, 0) gives an empty
Sequence; (n, n) with n greater than 1 gives a Sequence of n copies
of C; (0, m) with m greater than 1 gives Bypass(Loop(C)); and (n, m)
with n greater than 1 and m greater than n gives a Sequence of n-1
copies of C followed by Loop(C). -/
theorem transform_repetition_table (e : Ast) (C : Shape)
    (h : transform e = .ok C) :
    transform (.repetition (some 0) none [e]) = .ok (.bypass (.loop C)) ∧
    transform (.repetition (some 1) none [e]) = .ok (.loop C) ∧
    (∀ n, 1 < n → transform (.repetition (some n) none [e]) =
      .ok (.sequence (List.replicate (n - 1) C ++ [.loop C]))) ∧
    transform (.repetition (some 0) (some 1) [e]) = .ok (.bypass C) ∧
    transform (.repetition (some 1) (some 1) [e]) = .ok C ∧
    transform (.repetition (some 0) (some 0) [e]) = .ok (.sequence []) ∧
    (∀ n, 1 < n → transform (.repetition (some n) (some n) [e]) =
      .ok (.sequence (List.replicate n C))) ∧
    (∀ m, 1 < m → transform (.repetition (some 0) (some m) [e]) =
      .ok (.bypass (.loop C))) ∧
    (∀ n m, 1 < n → n < m → transform (.repetition (some n) (some m) [e]) =
      .ok (.sequence (List.replicate (n - 1) C ++ [.loop C]))) := by
  refine ⟨?_, ?_, fun n hn => ?_, ?_, ?_, ?_, fun n hn => ?_,
    fun m hm => ?_, fun n m hn hm => ?_⟩ <;>
    rw [transform_repetition_single _ _ _ _ h]
  · rw [repShape_zero_unbounded]
  · rw [repShape_one_unbounded]
  · rw [repShape_n_unbounded _ _ hn]
  · rw [repShape_zero_one]
  · rw [repShape_one_one]
  · rw [repShape_zero_zero]
  · rw [repShape_n_n _ _ hn]
  · rw [repShape_zero_m _ _ hm]
  · rw [repShape_n_m _ _ _ hn hm]

/-- Witness for transform_repetition_table: the table applied to a
concrete child, sampling the generic rows at n = 3 and m = 5. -/
theorem transform_repetition_table_witness :
    transform (.repetition (some 3) none [.terminal "x"]) =
      .ok (.sequence [.textbox "x" .terminal, .textbox "x" .terminal,
        .loop (.textbox "x" .terminal)]) ∧
    transform (.repetition (some 0) (some 5) [.terminal "x"]) =
      .ok (.bypass (.loop (.textbox "x" .terminal))) ∧
    transform (.repetition (some 1) (some 1) [.terminal "x"]) =
      .ok (.textbox "x" .terminal) := by
  have h := transform_repetition_table (.terminal "x") (.textbox "x" .terminal) rfl
  exact ⟨h.2.2.1 3 (by decide), h.2.2.2.2.2.2.2.1 5 (by decide),
    h.2.2.2.2.1⟩


/-- The sum of a list of even integers is even. -/
theorem listSumEven : ∀ (l : List Int), (∀ x ∈ l, x % 2 = 0) → l.sum % 2 = 0 := by
  intro l h
  induction l with
  | nil => simp
  | cons a t ih =>
      simp only [List.sum_cons]
      have ha := h a (by simp)
      have ht := ih (fun x hx => h x (by simp [hx]))
      omega

/-- A left fold of max over integers returns the seed or a list
member. -/
theorem foldlMax_mem : ∀ (l : List Int) (a : Int),
    l.foldl max a = a ∨ l.foldl max a ∈ l := by
  intro l
  induction l with
  | nil => simp
  | cons x t ih =>
      intro a
      simp only [List.foldl_cons]
      rcases ih (max a x) with h | h
      · rw [h]
        rcases max_choice a x with h2 | h2 <;> simp [h2]
      · right
        simp [h]

mutual

/-- Every successfully laid-out shape has even width: the condition
of every console.assert in the layout methods holds, so the asserts
never even log. -/
theorem layout_width_even (measure : String → Nat) :
    ∀ (s : Shape) (d : Dims), layout measure s = .ok d → d.width % 2 = 0
  | .textbox t _, d, h => by
      simp only [layout, textboxDims, Except.ok.injEq] at h
      subst h
      dsimp only
      omega
  | .sequence cs, d, h => by
      simp only [layout] at h
      cases hl : layoutList measure cs with
      | error e => rw [hl] at h; simp only [bind, Except.bind] at h; exact Except.noConfusion h
      | ok ds =>
          rw [hl] at h
          simp only [bind, Except.bind, Except.ok.injEq] at h
          subst h
          have hds := layoutList_width_even measure cs ds hl
          have hsum := listSumEven (ds.map Dims.width)
            (by intro x hx; rcases List.mem_map.mp hx with ⟨d2, hd2, rfl⟩
                exact hds d2 hd2)
          dsimp only
          omega
  | .stack cs, d, h => by
      simp only [layout] at h
      cases hl : layoutList measure cs with
      | error e => rw [hl] at h; simp only [bind, Except.bind] at h; exact Except.noConfusion h
      | ok ds =>
          rw [hl] at h
          cases ds with
          | nil => simp only [bind, Except.bind] at h; exact Except.noConfusion h
          | cons d0 rest =>
              simp only [bind, Except.bind, Except.ok.injEq] at h
              subst h
              have hds := layoutList_width_even measure cs (d0 :: rest) hl
              have h0 : d0.width % 2 = 0 := hds d0 (by simp)
              have hmax : (rest.map Dims.width).foldl max d0.width % 2 = 0 := by
                rcases foldlMax_mem (rest.map Dims.width) d0.width with he | he
                · rw [he]; exact h0
                · rcases List.mem_map.mp he with ⟨d2, hd2, hw2⟩
                  rw [← hw2]
                  exact hds d2 (by simp [hd2])
              dsimp only
              omega
  | .bypass c, d, h => by
      simp only [layout] at h
      cases hc : layout measure c with
      | error e => rw [hc] at h; simp only [bind, Except.bind] at h; exact Except.noConfusion h
      | ok dc =>
          rw [hc] at h
          simp only [bind, Except.bind, Except.ok.injEq] at h
          subst h
          have := layout_width_even measure c dc hc
          dsimp only
          omega
  | .loop c, d, h => by
      simp only [layout] at h
      cases hc : layout measure c with
      | error e => rw [hc] at h; simp only [bind, Except.bind] at h; exact Except.noConfusion h
      | ok dc =>
          rw [hc] at h
          simp only [bind, Except.bind, Except.ok.injEq] at h
          subst h
          have := layout_width_even measure c dc hc
          dsimp only
          omega
termination_by s _ _ => sizeOf s

/-- Every member of a successfully laid-out child list has even
width. -/
theorem layoutList_width_even (measure : String → Nat) :
    ∀ (cs : List Shape) (ds : List Dims), layoutList measure cs = .ok ds →
      ∀ d ∈ ds, d.width % 2 = 0
  | [], ds, h => by
      simp only [layoutList, Except.ok.injEq] at h
      subst h
      simp
  | c :: rest, ds, h => by
      simp only [layoutList] at h
      cases hc : layout measure c with
      | error e => rw [hc] at h; simp only [bind, Except.bind] at h; exact Except.noConfusion h
      | ok dc =>
          rw [hc] at h
          cases hr : layoutList measure rest with
          | error e => rw [hr] at h; simp only [bind, Except.bind] at h; exact Except.noConfusion h
          | ok drest =>
              rw [hr] at h
              simp only [bind, Except.bind, Except.ok.injEq] at h
              subst h
              intro d hd
              rcases List.mem_cons.mp hd with rfl | hd2
              · exact layout_width_even measure c d hc
              · exact layoutList_width_even measure rest drest hr d hd2
termination_by cs _ _ => sizeOf cs

end


/-- C8 counterexample: the layout of the empty SequenceElement (the
shape the transformer produces for a zero-repetition) returns
normally with dimensions that violate the layout invariant, so an
invariant-violating layout does not abort or raise. -/
theorem layout_returns_invalid_dims :
    layout (fun _ => 0) (.sequence []) =
      .ok { width := -2, height := .negInf, baseline := .negInf } ∧
    invB { width := -2, height := .negInf, baseline := .negInf } = false :=
  ⟨rfl, rfl⟩

/-- C8 amended: the only invariant check in the layout pass is the
console.assert of width evenness, whose condition in fact holds for
every successfully laid-out shape, so nothing is ever logged, let
alone raised; a layout whose computed dimensions violate the
height/baseline invariant (the empty SequenceElement) returns
normally with the invalid dimensions, silently. -/
theorem layout_asserts_log_only :
    (∀ (measure : String → Nat) (s : Shape) (d : Dims),
      layout measure s = .ok d → d.width % 2 = 0) ∧
    layout (fun _ => 0) (.sequence []) =
      .ok { width := -2, height := .negInf, baseline := .negInf } ∧
    invB { width := -2, height := .negInf, baseline := .negInf } = false :=
  ⟨fun m s d h => layout_width_even m s d h, rfl, rfl⟩

/-- Witness for layout_asserts_log_only at a concrete text box. -/
theorem layout_asserts_log_only_witness :
    layout (fun _ => 0) (.textbox "a" .terminal) =
      .ok { width := 4, height := .int 2, baseline := .int 1 } ∧
    (Dims.mk 4 (.int 2) (.int 1)).width % 2 = 0 :=
  ⟨rfl, layout_asserts_log_only.1 (fun _ => 0) (.textbox "a" .terminal)
    (Dims.mk 4 (.int 2) (.int 1)) rfl⟩

/-- C9: the transformer maps a repetition with both bounds zero to an
empty SequenceElement; laying it out completes without raising and
assigns width -2 (the sum of no child widths plus 2 times the child
count minus one) and height and baseline negative infinity (Math.max
over an empty spread), which violates the height and baseline parts
of the layout invariant. -/
theorem empty_sequence_layout_degenerate :
    transform (.repetition (some 0) (some 0) [.terminal "x"]) =
      .ok (.sequence []) ∧
    (∀ measure : String → Nat, layout measure (.sequence []) =
      .ok { width := -2, height := .negInf, baseline := .negInf }) ∧
    invB { width := -2, height := .negInf, baseline := .negInf } = false ∧
    (-2 : Int) % 2 = 0 :=
  ⟨rfl, fun _ => rfl, rfl, by decide⟩

/-- C3: evaluation of the parse-then-transform pipeline on the three
repetition patterns.  The texts 4X and 1X behave as the spec table
says: 4X parses to a repetition node that the transformer turns into
a Sequence of four nonterminal text boxes and 1X yields the bare text
box.  The text *X however is lowered by the parser itself to a loop
AST node, and the transformer has no case for the loop type and
throws, instead of producing Bypass(Loop(TextBox)). -/
theorem repetition_pipeline_rows :
    parse "rule = *X" =
      .ok [("rule", ⟨"rule", "*X", .loop [.nonterminal "X"]⟩)] ∧
    transform (.loop [.nonterminal "X"]) =
      .error "Unknown element type: loop" ∧
    parse "rule = 4X" =
      .ok [("rule", ⟨"rule", "4X",
        .repetition (some 4) (some 4) [.nonterminal "X"]⟩)] ∧
    transform (.repetition (some 4) (some 4) [.nonterminal "X"]) =
      .ok (.sequence [.textbox "X" .nonterminal, .textbox "X" .nonterminal,
        .textbox "X" .nonterminal, .textbox "X" .nonterminal]) ∧
    parse "rule = 1X" =
      .ok [("rule", ⟨"rule", "1X", .nonterminal "X"⟩)] ∧
    transform (.nonterminal "X") = .ok (.textbox "X" .nonterminal) :=
  ⟨rfl, rfl, rfl, rfl, rfl, rfl⟩

/-- C7: parsing a rule with an unclosed group fails with an
ABNFParseError whose line and column are exactly the source position
of the opening parenthesis token (line 1, column 8, as the tokenize
conjuncts show), and the bracket case behaves symmetrically. -/
theorem parse_error_at_opening_token :
    tokenize "rule = (A" =
      .ok [⟨.identifier, "rule", 1, 1⟩, ⟨.assign, "=", 1, 6⟩,
        ⟨.lparen, "(", 1, 8⟩, ⟨.identifier, "A", 1, 9⟩] ∧
    parse "rule = (A" = .error (.parseError
      ⟨"Missing closing parenthesis", some 1, some 8,
        some ⟨.lparen, "(", 1, 8⟩⟩) ∧
    tokenize "rule = [A" =
      .ok [⟨.identifier, "rule", 1, 1⟩, ⟨.assign, "=", 1, 6⟩,
        ⟨.lbracket, "[", 1, 8⟩, ⟨.identifier, "A", 1, 9⟩] ∧
    parse "rule = [A" = .error (.parseError
      ⟨"Missing closing bracket", some 1, some 8,
        some ⟨.lbracket, "[", 1, 8⟩⟩) :=
  ⟨rfl, rfl, rfl, rfl⟩


/-- The totalHeight fold of StackElement.layout on integral child
heights: the first height plus one plus each later height. -/
theorem stackHeightFold : ∀ (drest : List Dims) (hrest : List Int) (a : Int),
    drest.map Dims.height = hrest.map JNum.int →
    drest.foldl (fun (acc : JNum) (d : Dims) =>
        JNum.jadd (JNum.jadd acc (JNum.int 1)) d.height) (JNum.int a) =
      JNum.int (a + (hrest.map (fun x => 1 + x)).sum) := by
  intro drest
  induction drest with
  | nil =>
      intro hrest a h
      cases hrest with
      | nil => simp
      | cons x xr => simp at h
  | cons d dr ih =>
      intro hrest a h
      cases hrest with
      | nil => simp at h
      | cons x xr =>
          simp only [List.map_cons, List.cons.injEq] at h
          obtain ⟨h1, h2⟩ := h
          simp only [List.foldl_cons, List.map_cons, List.sum_cons]
          rw [h1]
          show dr.foldl (fun (acc : JNum) (d : Dims) =>
            JNum.jadd (JNum.jadd acc (JNum.int 1)) d.height)
            (JNum.int (a + 1 + x)) = _
          rw [ih xr (a + 1 + x) h2]
          congr 1
          ring

/-- A left fold of max over integers bounds the seed and every list
member from above. -/
theorem foldlMax_bounds : ∀ (l : List Int) (a : Int),
    a ≤ l.foldl max a ∧ ∀ x ∈ l, x ≤ l.foldl max a := by
  intro l
  induction l with
  | nil => simp
  | cons y t ih =>
      intro a
      refine ⟨le_trans (le_max_left a y) (ih (max a y)).1, ?_⟩
      intro x hx
      rcases List.mem_cons.mp hx with rfl | hx2
      · exact le_trans (le_max_right a x) (ih (max a x)).1
      · exact (ih (max a y)).2 x hx2

/-- C4: StackElement.layout on a stack whose children are laid out
with dimensions d0 .. and integral nonnegative heights h0 :: hrest
assigns width 2 plus the maximum child width plus 2 (M below is that
maximum: a child width bounding all child widths), height equal to
the first height plus the sum over the later children of one plus
their height, rounded up to the next even number when that sum is
odd, and baseline equal to the first child baseline. -/
theorem stackElement_layout_formulas (measure : String → Nat)
    (cs : List Shape) (d0 : Dims) (drest : List Dims)
    (h0 : Int) (hrest : List Int)
    (hl : layoutList measure cs = .ok (d0 :: drest))
    (hh : (d0 :: drest).map Dims.height = (h0 :: hrest).map JNum.int)
    (hnn : ∀ x ∈ h0 :: hrest, 0 ≤ x) :
    ∃ M : Int,
      M ∈ (d0 :: drest).map Dims.width ∧
      (∀ w ∈ (d0 :: drest).map Dims.width, w ≤ M) ∧
      layout measure (.stack cs) = .ok
        { width := 2 + M + 2
          height := .int
            (if (h0 + (hrest.map (fun x => 1 + x)).sum) % 2 = 0
             then h0 + (hrest.map (fun x => 1 + x)).sum
             else h0 + (hrest.map (fun x => 1 + x)).sum + 1)
          baseline := d0.baseline } := by
  refine ⟨(drest.map Dims.width).foldl max d0.width, ?_, ?_, ?_⟩
  · rw [List.map_cons]
    rcases foldlMax_mem (drest.map Dims.width) d0.width with he | he
    · rw [he]; exact List.mem_cons_self _ _
    · exact List.mem_cons_of_mem _ he
  · intro w hw
    rw [List.map_cons, List.mem_cons] at hw
    rcases hw with rfl | hw2
    · exact (foldlMax_bounds (drest.map Dims.width) d0.width).1
    · exact (foldlMax_bounds (drest.map Dims.width) d0.width).2 w hw2
  · simp only [layout]
    rw [hl]
    simp only [bind, Except.bind, Except.ok.injEq]
    simp only [List.map_cons, List.cons.injEq] at hh
    obtain ⟨hh0, hhrest⟩ := hh
    rw [hh0, stackHeightFold drest hrest h0 hhrest]
    have ht : 0 ≤ h0 + (hrest.map (fun x => 1 + x)).sum := by
      have h0nn := hnn h0 (by simp)
      have : 0 ≤ (hrest.map (fun x => 1 + x)).sum := by
        apply List.sum_nonneg
        intro x hx
        rcases List.mem_map.mp hx with ⟨y, hy, rfl⟩
        have := hnn y (by simp [hy])
        omega
      omega
    set t : Int := h0 + (hrest.map (fun x => 1 + x)).sum with hdef
    simp only [JNum.jadd, JNum.jmod2]
    rw [Int.tmod_eq_emod ht (by norm_num)]
    congr 2
    rcases Int.emod_two_eq_zero_or_one t with he | he <;> simp [he] <;> omega

/-- C5: in every started turtle state and every heading, turnLeft
and turnRight advance the position by one grid unit in the old
heading plus one grid unit in the new heading (both coordinates
change, so the turtle never pivots in place), set the new heading,
and append exactly one quarter-circle arc command with both radii
equal to the grid size, no x-axis rotation, the small-arc flag, and
the fixed precomputed sweep flag of the ordered heading pair from the
arcTransitions table. -/
theorem turn_advances_and_appends_arc (s : TrackBuilderState)
    (h : s.isStarted = true) :
    (∃ s2 sweep, TrackBuilder.turnLeft s = .ok s2 ∧
      TrackBuilder.sweepFor s.dir (TrackBuilder.turnLeftDir s.dir) = some sweep ∧
      s2.x = s.x + (TrackBuilder.delta s.dir).1 +
        (TrackBuilder.delta (TrackBuilder.turnLeftDir s.dir)).1 ∧
      s2.y = s.y + (TrackBuilder.delta s.dir).2 +
        (TrackBuilder.delta (TrackBuilder.turnLeftDir s.dir)).2 ∧
      s2.x ≠ s.x ∧ s2.y ≠ s.y ∧
      s2.dir = TrackBuilder.turnLeftDir s.dir ∧
      s2.pathCommands = s.pathCommands ++
        [.arc s.gridSize s.gridSize 0 0 sweep
          (s2.x * s.gridSize) (s2.y * s.gridSize)]) ∧
    (∃ s2 sweep, TrackBuilder.turnRight s = .ok s2 ∧
      TrackBuilder.sweepFor s.dir (TrackBuilder.turnRightDir s.dir) = some sweep ∧
      s2.x = s.x + (TrackBuilder.delta s.dir).1 +
        (TrackBuilder.delta (TrackBuilder.turnRightDir s.dir)).1 ∧
      s2.y = s.y + (TrackBuilder.delta s.dir).2 +
        (TrackBuilder.delta (TrackBuilder.turnRightDir s.dir)).2 ∧
      s2.x ≠ s.x ∧ s2.y ≠ s.y ∧
      s2.dir = TrackBuilder.turnRightDir s.dir ∧
      s2.pathCommands = s.pathCommands ++
        [.arc s.gridSize s.gridSize 0 0 sweep
          (s2.x * s.gridSize) (s2.y * s.gridSize)]) := by
  obtain ⟨g, x, y, dir, cmds, started⟩ := s
  simp only at h
  subst h
  cases dir <;>
    exact ⟨⟨_, _, rfl, rfl, rfl, rfl,
        by simp only [TrackBuilder.delta, TrackBuilder.turnLeftDir]; omega,
        by simp only [TrackBuilder.delta, TrackBuilder.turnLeftDir]; omega,
        rfl, rfl⟩,
      ⟨_, _, rfl, rfl, rfl, rfl,
        by simp only [TrackBuilder.delta, TrackBuilder.turnRightDir]; omega,
        by simp only [TrackBuilder.delta, TrackBuilder.turnRightDir]; omega,
        rfl, rfl⟩⟩

/-- Witness for stackElement_layout_formulas: a stack of two text
boxes, heights 2 and 2, total 2 + (1 + 2) = 5, rounded up to 6. -/
theorem stackElement_layout_formulas_witness :
    ∃ M : Int,
      M ∈ [(4 : Int), 4] ∧
      layout (fun _ => 1)
        (.stack [.textbox "A" .terminal, .textbox "B" .nonterminal]) = .ok
        { width := 2 + M + 2, height := .int 6, baseline := .int 1 } := by
  obtain ⟨M, h1, _h2, h3⟩ := stackElement_layout_formulas (fun _ => 1)
    [.textbox "A" .terminal, .textbox "B" .nonterminal]
    (textboxDims (fun _ => 1) "A") [textboxDims (fun _ => 1) "B"]
    2 [2] rfl rfl (by decide)
  refine ⟨M, ?_, ?_⟩
  · simpa [textboxDims] using h1
  · simpa [textboxDims] using h3

/-- Witness for turn_advances_and_appends_arc: a started state
heading east at the origin. -/
theorem turn_advances_and_appends_arc_witness :
    TrackBuilder.turnLeft ⟨16, 0, 0, .east, [], true⟩ =
      .ok ⟨16, 1, -1, .north, [.arc 16 16 0 0 0 16 (-16)], true⟩ ∧
    TrackBuilder.turnRight ⟨16, 0, 0, .east, [], true⟩ =
      .ok ⟨16, 1, 1, .south, [.arc 16 16 0 0 1 16 16], true⟩ := by
  have h := turn_advances_and_appends_arc ⟨16, 0, 0, .east, [], true⟩ rfl
  exact ⟨by rfl, by rfl⟩


/-- A nonempty maximal run means the head satisfies the class. -/
theorem runLength_head (p : Char → Bool) (cs : List Char)
    (h : runLength p cs ≠ 0) : ∃ c rest, cs = c :: rest ∧ p c = true := by
  cases cs with
  | nil => simp [runLength] at h
  | cons c rest =>
      refine ⟨c, rest, rfl, ?_⟩
      by_contra hc
      simp [runLength, List.takeWhile_cons, hc] at h

/-- A head outside the class gives an empty maximal run. -/
theorem runLength_zero (p : Char → Bool) (c : Char) (rest : List Char)
    (h : p c = false) : runLength p (c :: rest) = 0 := by
  simp [runLength, List.takeWhile_cons, h]

/-- The whitespace group fails on a non-whitespace head. -/
theorem matchWhitespace_none (c : Char) (rest : List Char)
    (h : jsWhitespace c = false) : matchWhitespace (c :: rest) = none := by
  simp [matchWhitespace, runLength_zero _ _ _ h]

/-- The comment group fails unless the head is a semicolon. -/
theorem matchComment_none (c : Char) (rest : List Char) (h : c ≠ ';') :
    matchComment (c :: rest) = none := by
  unfold matchComment
  split <;> simp_all

/-- The string group fails on a head that is neither a marker nor a
double quote. -/
theorem matchString_none (c : Char) (rest : List Char)
    (h1 : c ≠ '%') (h2 : c ≠ '\"') : matchString (c :: rest) = none := by
  unfold matchString
  split
  · simp_all
  · simp [matchQuoted, h2]

/-- A quoted run fails on a head that is not the quote. -/
theorem matchQuoted_none (q c : Char) (rest : List Char) (h : ¬ c = q) :
    matchQuoted q (c :: rest) = none := by
  simp [matchQuoted, h]

/-- The sstring group fails on a head that is neither a marker nor a
single quote. -/
theorem matchSString_none (c : Char) (rest : List Char)
    (h1 : c ≠ '%') (h2 : ¬ c = singleQuote) : matchSString (c :: rest) = none := by
  unfold matchSString
  split
  · simp_all
  · exact matchQuoted_none _ _ _ h2

/-- The hexval group fails on a non-marker head. -/
theorem matchHexval_none (c : Char) (rest : List Char) (h : c ≠ '%') :
    matchHexval (c :: rest) = none := by
  unfold matchHexval
  split <;> simp_all

/-- The decval group fails on a non-marker head. -/
theorem matchDecval_none (c : Char) (rest : List Char) (h : c ≠ '%') :
    matchDecval (c :: rest) = none := by
  unfold matchDecval
  split <;> simp_all

/-- A digit or star head is outside every class the groups before
the repetition group start with. -/
theorem digit_star_facts (c : Char) (h : c.isDigit = true ∨ c = '*') :
    jsWhitespace c = false ∧ c ≠ ';' ∧ c ≠ '%' ∧ c ≠ '\"' ∧
      ¬ c = singleQuote := by
  rcases h with h | rfl
  · refine ⟨?_, ?_, ?_, ?_, ?_⟩
    · by_contra hw
      rw [Bool.not_eq_false] at hw
      simp only [jsWhitespace, decide_eq_true_eq] at hw
      rcases hw with rfl | rfl | rfl | rfl | rfl | rfl <;>
        exact absurd h (by decide)
    · rintro rfl; exact absurd h (by decide)
    · rintro rfl; exact absurd h (by decide)
    · rintro rfl; exact absurd h (by decide)
    · rintro heq; rw [heq] at h; exact absurd h (by decide)
  · exact ⟨by decide, by decide, by decide, by decide, by decide⟩


/-- A successful repetition-group match starts with a digit or a
star. -/
theorem matchRepetition_head (cs : List Char) (n : Nat)
    (h : matchRepetition cs = some n) :
    ∃ c rest, cs = c :: rest ∧ (c.isDigit = true ∨ c = '*') := by
  unfold matchRepetition at h
  by_cases hd : runLength Char.isDigit cs ≠ 0
  · obtain ⟨c, rest, heq, hc⟩ := runLength_head Char.isDigit cs hd
    exact ⟨c, rest, heq, Or.inl hc⟩
  · rw [if_neg hd] at h
    split at h
    · exact ⟨_, _, rfl, Or.inr rfl⟩
    · simp at h

/-- Whenever the repetition-count group matches at a position, the
tokenizer emits a repetition token there: every group tried earlier
fails on a digit or star head, so in particular an input like 4-star
can never be read as the bare integer 4. -/
theorem tokenAt_repetition_priority (cs : List Char) (n : Nat)
    (h : matchRepetition cs = some n) : tokenAt cs = some (.repetition, n) := by
  obtain ⟨c, rest, rfl, hc⟩ := matchRepetition_head cs n h
  obtain ⟨hw, hsc, hpc, hdq, hsq⟩ := digit_star_facts c hc
  simp only [tokenAt, tokenGroups, List.foldr_cons, List.foldr_nil]
  rw [matchWhitespace_none c rest hw, matchComment_none c rest hsc,
    matchString_none c rest hpc hdq, matchSString_none c rest hpc hsq,
    matchHexval_none c rest hpc, matchDecval_none c rest hpc, h]
  rfl

/-- C6: tokenizing 8HEXDIG yields exactly the integer token 8 at
line 1 column 1 and the identifier token HEXDIG at line 1 column 2,
tiling the seven input characters with no gap; the input 4-star is a
single repetition-count token even though the bare-integer group also
matches there (last conjunct), because the repetition group is tried
first at every position (third conjunct). -/
theorem tokenize_8hexdig_and_priority :
    tokenize "8HEXDIG" =
      .ok [⟨.number, "8", 1, 1⟩, ⟨.identifier, "HEXDIG", 1, 2⟩] ∧
    tokenize "4*" = .ok [⟨.repetition, "4*", 1, 1⟩] ∧
    (∀ (cs : List Char) (n : Nat), matchRepetition cs = some n →
      tokenAt cs = some (.repetition, n)) ∧
    matchNumber ("4*".toList) = some 1 :=
  ⟨rfl, rfl, tokenAt_repetition_priority, rfl⟩

/-- Witness for tokenize_8hexdig_and_priority at the input 4-star. -/
theorem tokenize_8hexdig_and_priority_witness :
    tokenAt ("4*".toList) = some (.repetition, 2) :=
  tokenize_8hexdig_and_priority.2.2.1 ("4*".toList) 2 rfl


/-- The rule-token scan stops exactly at the next rule header when
the body itself contains none. -/
theorem extractCount_stops : ∀ (body : List Token) (hd asn : Token)
    (rest2 : List Token), noHeaderB body = true →
    hd.type = .identifier → asn.type = .assign →
    extractCount (body ++ hd :: asn :: rest2) = body.length
  | [], hd, asn, rest2, _, hid, has => by
      simp [extractCount, hid, has]
  | [x], hd, asn, rest2, _, hid, has => by
      simp [extractCount, hid, has]
  | x :: y :: body2, hd, asn, rest2, hb, hid, has => by
      simp only [noHeaderB, Bool.and_eq_true] at hb
      have ih := extractCount_stops (y :: body2) hd asn rest2 hb.2 hid has
      have hneg : ¬(x.type = TokType.identifier ∧ y.type = TokType.assign) := by
        intro hcon
        simp [hcon.1, hcon.2] at hb
      simp only [List.cons_append, extractCount, List.append_eq] at ih ⊢
      rw [if_neg hneg, ih]
      simp only [List.length_cons]
      omega

/-- The rule-token scan runs to the end of a stream with no header
in it. -/
theorem extractCount_all : ∀ (body : List Token), noHeaderB body = true →
    extractCount body = body.length
  | [], _ => by simp [extractCount]
  | [x], _ => by simp [extractCount]
  | x :: y :: body2, hb => by
      simp only [noHeaderB, Bool.and_eq_true] at hb
      have ih := extractCount_all (y :: body2) hb.2
      have hneg : ¬(x.type = TokType.identifier ∧ y.type = TokType.assign) := by
        intro hcon
        simp [hcon.1, hcon.2] at hb
      simp only [extractCount]
      rw [if_neg hneg, ih]
      simp only [List.length_cons]
      omega

/-- _extractRuleTokens slices out exactly the body before the next
rule header. -/
theorem extractRuleTokens_stops (body : List Token) (hd asn : Token)
    (rest2 : List Token) (hb : noHeaderB body = true)
    (hid : hd.type = .identifier) (has : asn.type = .assign) :
    extractRuleTokens (body ++ hd :: asn :: rest2) =
      (body, hd :: asn :: rest2) := by
  unfold extractRuleTokens
  rw [extractCount_stops body hd asn rest2 hb hid has]
  rw [List.take_left, List.drop_left]

/-- _extractRuleTokens takes the whole stream when no header
remains. -/
theorem extractRuleTokens_all (body : List Token)
    (hb : noHeaderB body = true) :
    extractRuleTokens body = (body, []) := by
  unfold extractRuleTokens
  rw [extractCount_all body hb]
  simp

/-- One header step of the rule loop. -/
theorem parseTokenStreamGo_header (content : String) (fuel : Nat)
    (t1 t2 : Token) (rest : List Token)
    (rules : List (String × ParsedRule))
    (hid : t1.type = .identifier) (has : t2.type = .assign)
    (e : Ast) (hp : parseTokenSequence (extractRuleTokens rest).1 = .ok e) :
    parseTokenStreamGo content (fuel + 1) (t1 :: t2 :: rest) rules =
      parseTokenStreamGo content fuel (extractRuleTokens rest).2
        (mapSet rules t1.value
          { name := t1.value
            original := reconstructRuleText content t1.line
              (extractRuleTokens rest).1
            expression := e }) := by
  simp [parseTokenStreamGo, hid, has, hp]

/-- C10: an input whose token stream defines the same rule name
twice parses successfully, and the rules map holds exactly one entry
for that name, carrying the parsed AST of the later definition and
the original text reconstructed from the later definition site; the
earlier definition is silently overwritten. -/
theorem duplicate_rule_overwrites (content name : String)
    (hd1 as1 hd2 as2 : Token) (body1 body2 : List Token) (e1 e2 : Ast)
    (hts : tokenize content = .ok (hd1 :: as1 :: body1 ++ hd2 :: as2 :: body2))
    (hh1 : hd1.type = .identifier) (hv1 : hd1.value = name)
    (ha1 : as1.type = .assign)
    (hh2 : hd2.type = .identifier) (hv2 : hd2.value = name)
    (ha2 : as2.type = .assign)
    (hb1 : noHeaderB body1 = true) (hb2 : noHeaderB body2 = true)
    (hp1 : parseTokenSequence body1 = .ok e1)
    (hp2 : parseTokenSequence body2 = .ok e2) :
    parse content = .ok [(name,
      { name := name
        original := reconstructRuleText content hd2.line body2
        expression := e2 })] := by
  have hmain : parseTokenStream (hd1 :: as1 :: body1 ++ hd2 :: as2 :: body2)
      content = .ok [(name,
        { name := name
          original := reconstructRuleText content hd2.line body2
          expression := e2 })] := by
    unfold parseTokenStream
    have hlen : (hd1 :: as1 :: body1 ++ hd2 :: as2 :: body2).length + 1 =
        (body1.length + body2.length + 4) + 1 := by
      simp [List.length_append]
      omega
    rw [hlen]
    simp only [List.cons_append]
    rw [parseTokenStreamGo_header content _ hd1 as1 _ [] hh1 ha1 e1
      (by rw [extractRuleTokens_stops body1 hd2 as2 body2 hb1 hh2 ha2]; exact hp1)]
    rw [extractRuleTokens_stops body1 hd2 as2 body2 hb1 hh2 ha2]
    have hlen2 : body1.length + body2.length + 4 =
        (body1.length + body2.length + 3) + 1 := by omega
    rw [hlen2]
    rw [parseTokenStreamGo_header content _ hd2 as2 _ _ hh2 ha2 e2
      (by rw [extractRuleTokens_all body2 hb2]; exact hp2)]
    rw [extractRuleTokens_all body2 hb2]
    have hlen3 : body1.length + body2.length + 3 =
        (body1.length + body2.length + 2) + 1 := by omega
    rw [hlen3]
    simp only [parseTokenStreamGo, mapSet, hv1, hv2]
    simp
  unfold parse
  rw [hts]
  dsimp only
  rw [hmain]

/-- Witness for duplicate_rule_overwrites: two definitions of the
rule a; the later definition y wins. -/
theorem duplicate_rule_overwrites_witness :
    parse "a = x\na = y" = .ok [("a",
      { name := "a"
        original := reconstructRuleText "a = x\na = y" 2
            [⟨.identifier, "y", 2, 5⟩]
        expression := .nonterminal "y" })] :=
  duplicate_rule_overwrites "a = x\na = y" "a"
    ⟨.identifier, "a", 1, 1⟩ ⟨.assign, "=", 1, 3⟩
    ⟨.identifier, "a", 2, 1⟩ ⟨.assign, "=", 2, 3⟩
    [⟨.identifier, "x", 1, 5⟩] [⟨.identifier, "y", 2, 5⟩]
    (.nonterminal "x") (.nonterminal "y")
    rfl rfl rfl rfl rfl rfl rfl rfl rfl rfl rfl


/-- Child-array well-formedness is well-formedness of every child. -/
theorem astWfList_iff : ∀ l : List Ast, astWfList l = true ↔ ∀ a ∈ l, astWf a = true
  | [] => by simp [astWfList]
  | a :: rest => by
      simp only [astWfList, Bool.and_eq_true, astWfList_iff rest, List.mem_cons]
      constructor
      · rintro ⟨h1, h2⟩ x (rfl | hx)
        · exact h1
        · exact h2 x hx
      · intro hx
        exact ⟨hx a (Or.inl rfl), fun x h2 => hx x (Or.inr h2)⟩

/-- The repetition wrap preserves AST well-formedness: it only ever
builds loop, sequence, bypass and exact-count repetition nodes with
equal bounds at least two. -/
theorem applyRepetition_wf (mn mx : Option Nat) (e : Ast)
    (he : astWf e = true) : astWf (applyRepetition mn mx e) = true := by
  unfold applyRepetition
  split_ifs with h1 h2 h3 h4
  · simp [astWf, astWfList, he]
  · simp [astWf, astWfList, he]
  · simp [astWf, astWfList, he]
  · obtain ⟨hmm, hgt⟩ := h4
    cases mn with
    | none => simp [boundGT] at hgt
    | some n =>
        subst hmm
        simp only [boundGT, decide_eq_true_eq] at hgt
        simp [astWf, astWfList, he]
        omega
  · exact he

mutual

/-- Every AST returned by _parseElement is well-formed. -/
theorem parseElement_wf : ∀ (fuel : Nat) (ts : List Token) (e : Ast)
    (rest : List Token), parseElement fuel ts = .ok (e, rest) → astWf e = true
  | 0, ts, e, rest => by
      intro h
      simp [parseElement] at h
  | f + 1, ts, e, rest => by
      intro h
      cases ts with
      | nil => simp [parseElement] at h
      | cons tok rest0 =>
          obtain ⟨ty, v, ln, col⟩ := tok
          cases ty <;> simp only [parseElement] at h
          case string | sstring | identifier | hexval | decval =>
            simp only [Except.ok.injEq, Prod.mk.injEq] at h
            obtain ⟨rfl, rfl⟩ := h
            rfl
          case lparen =>
            cases hx : parseExpression f rest0 with
            | error err =>
                rw [hx] at h
                simp only [bind, Except.bind] at h
                exact Except.noConfusion h
            | ok pr =>
                obtain ⟨e1, rest2⟩ := pr
                rw [hx] at h
                simp only [bind, Except.bind] at h
                cases rest2 with
                | nil => exact Except.noConfusion h
                | cons t2 rest3 =>
                    dsimp only at h
                    by_cases ht2 : t2.type = TokType.rparen
                    · rw [if_pos ht2] at h
                      simp only [Except.ok.injEq, Prod.mk.injEq] at h
                      obtain ⟨rfl, rfl⟩ := h
                      exact parseExpression_wf f rest0 _ _ hx
                    · rw [if_neg ht2] at h
                      exact Except.noConfusion h
          case lbracket =>
            cases hx : parseExpression f rest0 with
            | error err =>
                rw [hx] at h
                simp only [bind, Except.bind] at h
                exact Except.noConfusion h
            | ok pr =>
                obtain ⟨e1, rest2⟩ := pr
                rw [hx] at h
                simp only [bind, Except.bind] at h
                cases rest2 with
                | nil => exact Except.noConfusion h
                | cons t2 rest3 =>
                    dsimp only at h
                    by_cases ht2 : t2.type = TokType.rbracket
                    · rw [if_pos ht2] at h
                      simp only [Except.ok.injEq, Prod.mk.injEq] at h
                      obtain ⟨rfl, rfl⟩ := h
                      simp [astWf, astWfList, parseExpression_wf f rest0 _ _ hx]
                    · rw [if_neg ht2] at h
                      exact Except.noConfusion h
          all_goals exact Except.noConfusion h

/-- Every AST returned by _parseRepetition is well-formed. -/
theorem parseRepetition_wf : ∀ (fuel : Nat) (ts : List Token) (e : Ast)
    (rest : List Token), parseRepetition fuel ts = .ok (e, rest) → astWf e = true
  | 0, ts, e, rest => by
      intro h
      simp [parseRepetition] at h
  | f + 1, ts, e, rest => by
      intro h
      simp only [parseRepetition] at h
      rcases hrc : repCountHead ts with ⟨hasRep, mn, mx, ts2⟩
      rw [hrc] at h
      dsimp only at h
      cases hx : parseElement f ts2 with
      | error err =>
          rw [hx] at h
          simp only [bind, Except.bind] at h
          exact Except.noConfusion h
      | ok pr =>
          obtain ⟨e1, rest1⟩ := pr
          rw [hx] at h
          simp only [bind, Except.bind] at h
          have he1 := parseElement_wf f ts2 e1 rest1 hx
          cases hasRep with
          | true =>
              rw [if_pos rfl] at h
              simp only [Except.ok.injEq, Prod.mk.injEq] at h
              obtain ⟨rfl, rfl⟩ := h
              exact applyRepetition_wf mn mx e1 he1
          | false =>
              simp only [Bool.false_eq_true, if_false, Except.ok.injEq,
                Prod.mk.injEq] at h
              obtain ⟨rfl, rfl⟩ := h
              exact he1

/-- The concatenation loop only accumulates well-formed ASTs. -/
theorem parseConcatenationGo_wf : ∀ (fuel : Nat) (ts : List Token)
    (acc out : List Ast) (rest : List Token),
    parseConcatenationGo fuel ts acc = .ok (out, rest) →
    (∀ a ∈ acc, astWf a = true) → ∀ a ∈ out, astWf a = true
  | 0, ts, acc, out, rest => by
      intro h
      simp [parseConcatenationGo] at h
  | f + 1, ts, acc, out, rest => by
      intro h hacc
      simp only [parseConcatenationGo] at h
      cases ts with
      | nil =>
          simp only [Except.ok.injEq, Prod.mk.injEq] at h
          obtain ⟨rfl, rfl⟩ := h
          exact hacc
      | cons tok ts0 =>
          dsimp only at h
          by_cases hstop : tok.type = TokType.alternation ∨
              tok.type = TokType.rparen ∨ tok.type = TokType.rbracket
          · rw [if_pos hstop] at h
            simp only [Except.ok.injEq, Prod.mk.injEq] at h
            obtain ⟨rfl, rfl⟩ := h
            exact hacc
          · rw [if_neg hstop] at h
            cases hx : parseRepetition f (tok :: ts0) with
            | error err =>
                rw [hx] at h
                simp only [bind, Except.bind] at h
                exact Except.noConfusion h
            | ok pr =>
                obtain ⟨e1, rest1⟩ := pr
                rw [hx] at h
                simp only [bind, Except.bind] at h
                refine parseConcatenationGo_wf f rest1 (acc ++ [e1]) out rest h ?_
                intro a ha
                rcases List.mem_append.mp ha with ha2 | ha2
                · exact hacc a ha2
                · rw [List.mem_singleton.mp ha2]
                  exact parseRepetition_wf f (tok :: ts0) e1 rest1 hx

/-- Every AST returned by _parseConcatenation is well-formed. -/
theorem parseConcatenation_wf : ∀ (fuel : Nat) (ts : List Token) (e : Ast)
    (rest : List Token), parseConcatenation fuel ts = .ok (e, rest) → astWf e = true
  | 0, ts, e, rest => by
      intro h
      simp [parseConcatenation] at h
  | f + 1, ts, e, rest => by
      intro h
      simp only [parseConcatenation] at h
      cases hx : parseConcatenationGo f ts [] with
      | error err =>
          rw [hx] at h
          simp only [bind, Except.bind] at h
          exact Except.noConfusion h
      | ok pr =>
          obtain ⟨els, rest1⟩ := pr
          rw [hx] at h
          simp only [bind, Except.bind] at h
          have hall := parseConcatenationGo_wf f ts [] els rest1 hx (by simp)
          cases els with
          | nil =>
              cases rest1 with
              | nil => exact Except.noConfusion h
              | cons t r => exact Except.noConfusion h
          | cons e1 els2 =>
              cases els2 with
              | nil =>
                  simp only [Except.ok.injEq, Prod.mk.injEq] at h
                  obtain ⟨rfl, rfl⟩ := h
                  exact hall _ (by simp)
              | cons e2 els3 =>
                  simp only [Except.ok.injEq, Prod.mk.injEq] at h
                  obtain ⟨rfl, rfl⟩ := h
                  show astWfList _ = true
                  exact (astWfList_iff _).mpr hall

/-- The alternation loop only accumulates well-formed ASTs. -/
theorem parseAlternationGo_wf : ∀ (fuel : Nat) (ts : List Token)
    (alts out : List Ast) (rest : List Token),
    parseAlternationGo fuel ts alts = .ok (out, rest) →
    (∀ a ∈ alts, astWf a = true) → ∀ a ∈ out, astWf a = true
  | 0, ts, alts, out, rest => by
      intro h
      simp [parseAlternationGo] at h
  | f + 1, ts, alts, out, rest => by
      intro h halts
      simp only [parseAlternationGo] at h
      cases ts with
      | nil =>
          simp only [Except.ok.injEq, Prod.mk.injEq] at h
          obtain ⟨rfl, rfl⟩ := h
          exact halts
      | cons tok ts0 =>
          dsimp only at h
          by_cases halt : tok.type = TokType.alternation
          · rw [if_pos halt] at h
            cases hx : parseConcatenation f ts0 with
            | error err =>
                rw [hx] at h
                simp only [bind, Except.bind] at h
                exact Except.noConfusion h
            | ok pr =>
                obtain ⟨e1, rest1⟩ := pr
                rw [hx] at h
                simp only [bind, Except.bind] at h
                refine parseAlternationGo_wf f rest1 (alts ++ [e1]) out rest h ?_
                intro a ha
                rcases List.mem_append.mp ha with ha2 | ha2
                · exact halts a ha2
                · rw [List.mem_singleton.mp ha2]
                  exact parseConcatenation_wf f ts0 e1 rest1 hx
          · rw [if_neg halt] at h
            simp only [Except.ok.injEq, Prod.mk.injEq] at h
            obtain ⟨rfl, rfl⟩ := h
            exact halts

/-- Every AST returned by _parseAlternation is well-formed. -/
theorem parseAlternation_wf : ∀ (fuel : Nat) (ts : List Token) (e : Ast)
    (rest : List Token), parseAlternation fuel ts = .ok (e, rest) → astWf e = true
  | 0, ts, e, rest => by
      intro h
      simp [parseAlternation] at h
  | f + 1, ts, e, rest => by
      intro h
      simp only [parseAlternation] at h
      cases hx : parseConcatenation f ts with
      | error err =>
          rw [hx] at h
          simp only [bind, Except.bind] at h
          exact Except.noConfusion h
      | ok pr =>
          obtain ⟨e1, rest1⟩ := pr
          rw [hx] at h
          simp only [bind, Except.bind] at h
          cases hy : parseAlternationGo f rest1 [e1] with
          | error err =>
              rw [hy] at h
              simp only [bind, Except.bind] at h
              exact Except.noConfusion h
          | ok pr2 =>
              obtain ⟨alts, rest2⟩ := pr2
              rw [hy] at h
              simp only [bind, Except.bind] at h
              have hall := parseAlternationGo_wf f rest1 [e1] alts rest2 hy
                (by intro a ha
                    rw [List.mem_singleton.mp ha]
                    exact parseConcatenation_wf f ts e1 rest1 hx)
              cases alts with
              | nil =>
                  simp only [Except.ok.injEq, Prod.mk.injEq] at h
                  obtain ⟨rfl, rfl⟩ := h
                  rfl
              | cons a1 alts2 =>
                  cases alts2 with
                  | nil =>
                      simp only [Except.ok.injEq, Prod.mk.injEq] at h
                      obtain ⟨rfl, rfl⟩ := h
                      exact hall _ (by simp)
                  | cons a2 alts3 =>
                      simp only [Except.ok.injEq, Prod.mk.injEq] at h
                      obtain ⟨rfl, rfl⟩ := h
                      show astWfList _ = true
                      exact (astWfList_iff _).mpr hall

/-- Every AST returned by _parseExpression is well-formed. -/
theorem parseExpression_wf : ∀ (fuel : Nat) (ts : List Token) (e : Ast)
    (rest : List Token), parseExpression fuel ts = .ok (e, rest) → astWf e = true
  | 0, ts, e, rest => by
      intro h
      simp [parseExpression] at h
  | f + 1, ts, e, rest => by
      intro h
      simp only [parseExpression] at h
      exact parseAlternation_wf f ts e rest h

end

/-- Every AST returned by _parseTokenSequence is well-formed. -/
theorem parseTokenSequence_wf (ts : List Token) (e : Ast)
    (h : parseTokenSequence ts = .ok e) : astWf e = true := by
  unfold parseTokenSequence at h
  split at h
  · exact Except.noConfusion h
  · cases hx : parseExpression (8 * ts.length + 8) ts with
    | error err => rw [hx] at h; exact Except.noConfusion h
    | ok pr =>
        obtain ⟨e1, rest1⟩ := pr
        rw [hx] at h
        simp only [Except.map, Except.ok.injEq] at h
        subst h
        exact parseExpression_wf _ ts e1 rest1 hx

/-- Shape-array nonemptiness is nonemptiness of every element. -/
theorem shapeNonemptyList_iff : ∀ l : List Shape,
    shapeNonemptyList l = true ↔ ∀ s ∈ l, shapeNonempty s = true
  | [] => by simp [shapeNonemptyList]
  | s :: rest => by
      simp only [shapeNonemptyList, Bool.and_eq_true, shapeNonemptyList_iff rest,
        List.mem_cons]
      constructor
      · rintro ⟨h1, h2⟩ x (rfl | hx)
        · exact h1
        · exact h2 x hx
      · intro hx
        exact ⟨hx s (Or.inl rfl), fun x h2 => hx x (Or.inr h2)⟩

mutual

/-- The transformer maps well-formed ASTs to shape trees whose
container nodes are all nonempty: the empty-sequence branch of the
repetition cascade is unreachable from bounds of at least two, and
the sequence/alternation cases reject empty child arrays
themselves. -/
theorem transform_good : ∀ (a : Ast) (s : Shape), astWf a = true →
    transform a = .ok s → shapeNonempty s = true
  | .terminal t, s, hwf, h => by
      simp only [transform] at h
      split at h
      · exact Except.noConfusion h
      · simp only [Except.ok.injEq] at h
        subst h
        rfl
  | .nonterminal t, s, hwf, h => by
      simp only [transform] at h
      split at h
      · exact Except.noConfusion h
      · simp only [Except.ok.injEq] at h
        subst h
        rfl
  | .sequence els, s, hwf, h => by
      simp only [transform] at h
      by_cases he : els.isEmpty
      · rw [if_pos he] at h
        exact Except.noConfusion h
      · rw [if_neg he] at h
        cases hx : transformList els with
        | error err =>
            rw [hx] at h
            simp only [bind, Except.bind] at h
            exact Except.noConfusion h
        | ok cs =>
            rw [hx] at h
            simp only [bind, Except.bind, Except.ok.injEq] at h
            subst h
            have hg := transformList_good els cs hwf hx
            have hcs : cs.isEmpty = false := by
              cases els with
              | nil => simp at he
              | cons a r =>
                  cases cs with
                  | nil => simp at hg
                  | cons c r2 => rfl
            simp only [shapeNonempty, hcs, Bool.not_false, Bool.true_and]
            exact (shapeNonemptyList_iff cs).mpr hg.2
  | .alternation els, s, hwf, h => by
      simp only [transform] at h
      by_cases he : els.isEmpty
      · rw [if_pos he] at h
        exact Except.noConfusion h
      · rw [if_neg he] at h
        cases hx : transformList els with
        | error err =>
            rw [hx] at h
            simp only [bind, Except.bind] at h
            exact Except.noConfusion h
        | ok cs =>
            rw [hx] at h
            simp only [bind, Except.bind, Except.ok.injEq] at h
            subst h
            have hg := transformList_good els cs hwf hx
            have hcs : cs.isEmpty = false := by
              cases els with
              | nil => simp at he
              | cons a r =>
                  cases cs with
                  | nil => simp at hg
                  | cons c r2 => rfl
            simp only [shapeNonempty, hcs, Bool.not_false, Bool.true_and]
            exact (shapeNonemptyList_iff cs).mpr hg.2
  | .optional els, s, hwf, h => by
      cases els with
      | nil => simp [transform] at h
      | cons e els2 =>
          cases els2 with
          | nil =>
              simp only [transform] at h
              cases hx : transform e with
              | error err =>
                  rw [hx] at h
                  simp only [bind, Except.bind] at h
                  exact Except.noConfusion h
              | ok c =>
                  rw [hx] at h
                  simp only [bind, Except.bind, Except.ok.injEq] at h
                  subst h
                  have hwfe : astWf e = true := by
                    have := (astWfList_iff [e]).mp hwf
                    exact this e (by simp)
                  exact transform_good e c hwfe hx
          | cons e2 els3 => simp [transform] at h
  | .stack els, s, hwf, h => by
      simp [transform] at h
  | .bypass els, s, hwf, h => by
      simp [transform] at h
  | .loop els, s, hwf, h => by
      simp [transform] at h
  | .repetition mn mx els, s, hwf, h => by
      cases els with
      | nil => simp [transform] at h
      | cons e els2 =>
          cases els2 with
          | nil =>
              simp only [astWf, Bool.and_eq_true] at hwf
              obtain ⟨hbounds, hlist⟩ := hwf
              have hwfe : astWf e = true :=
                (astWfList_iff [e]).mp hlist e (by simp)
              obtain ⟨n, hmn, hmx, hn⟩ :
                  ∃ n, mn = some n ∧ mx = some n ∧ 2 ≤ n := by
                cases mn with
                | none => simp at hbounds
                | some a =>
                    cases mx with
                    | none => simp at hbounds
                    | some b =>
                        simp only [Bool.and_eq_true, beq_iff_eq,
                          decide_eq_true_eq] at hbounds
                        exact ⟨a, rfl, by rw [hbounds.1], hbounds.2⟩
              subst hmn
              subst hmx
              simp only [transform] at h
              cases hx : transform e with
              | error err =>
                  rw [hx] at h
                  simp only [bind, Except.bind] at h
                  exact Except.noConfusion h
              | ok c =>
                  rw [hx] at h
                  simp only [bind, Except.bind, Except.ok.injEq] at h
                  subst h
                  have hc := transform_good e c hwfe hx
                  rw [repShape_n_n c n (by omega)]
                  have hrep : ∀ x ∈ List.replicate n c, shapeNonempty x = true := by
                    intro x hx2
                    rw [List.eq_of_mem_replicate hx2]
                    exact hc
                  have hne : (List.replicate n c).isEmpty = false := by
                    cases n with
                    | zero => omega
                    | succ k => simp [List.replicate]
                  simp only [shapeNonempty, hne, Bool.not_false, Bool.true_and]
                  exact (shapeNonemptyList_iff _).mpr hrep
          | cons e2 els3 => simp [transform] at h

/-- Elementwise transformation of a well-formed child array yields
as many good shapes. -/
theorem transformList_good : ∀ (els : List Ast) (ss : List Shape),
    astWfList els = true → transformList els = .ok ss →
    ss.length = els.length ∧ ∀ x ∈ ss, shapeNonempty x = true
  | [], ss, _, h => by
      simp only [transformList, Except.ok.injEq] at h
      subst h
      simp
  | a :: rest, ss, hwf, h => by
      simp only [transformList] at h
      simp only [astWfList, Bool.and_eq_true] at hwf
      cases hx : transform a with
      | error err =>
          rw [hx] at h
          simp only [bind, Except.bind] at h
          exact Except.noConfusion h
      | ok c =>
          rw [hx] at h
          simp only [bind, Except.bind] at h
          cases hy : transformList rest with
          | error err =>
              rw [hy] at h
              simp only [bind, Except.bind] at h
              exact Except.noConfusion h
          | ok cs =>
              rw [hy] at h
              simp only [bind, Except.bind, Except.ok.injEq] at h
              subst h
              obtain ⟨hlen, hall⟩ := transformList_good rest cs hwf.2 hy
              refine ⟨by simp [hlen], ?_⟩
              intro x hx2
              rcases List.mem_cons.mp hx2 with rfl | hx3
              · exact transform_good a x hwf.1 hx
              · exact hall x hx3

end


/-- Math.max on JavaScript numbers is associative. -/
theorem jmax_assoc (a b c : JNum) :
    JNum.jmax (JNum.jmax a b) c = JNum.jmax a (JNum.jmax b c) := by
  cases a <;> cases b <;> cases c <;> simp [JNum.jmax, max_assoc]

/-- Negative infinity is a right identity of Math.max. -/
theorem jmax_negInf_right (a : JNum) : JNum.jmax a .negInf = a := by
  cases a <;> rfl

/-- Negative infinity is a left identity of Math.max. -/
theorem jmax_negInf_left (a : JNum) : JNum.jmax .negInf a = a := by
  cases a <;> rfl

/-- A fold of Math.max factors through the empty-spread default. -/
theorem foldl_jmax_pull : ∀ (l : List JNum) (x : JNum),
    l.foldl JNum.jmax x = JNum.jmax x (l.foldl JNum.jmax .negInf)
  | [], x => by simp [jmax_negInf_right]
  | y :: t, x => by
      simp only [List.foldl_cons]
      rw [foldl_jmax_pull t (JNum.jmax x y), foldl_jmax_pull t (JNum.jmax .negInf y)]
      rw [jmax_negInf_left]
      exact jmax_assoc x y _

/-- Math.max over the heights and baselines of a nonempty list of
invariant-satisfying dimensions is an integral pair obeying the
invariant bounds. -/
theorem seq_dims_bounds : ∀ (ds : List Dims), ds ≠ [] →
    (∀ d ∈ ds, invD d) →
    ∃ H B : Int, JNum.jmaxList (ds.map Dims.height) = .int H ∧
      JNum.jmaxList (ds.map Dims.baseline) = .int B ∧
      2 ≤ H ∧ 0 ≤ B ∧ B < H
  | [], hne, _ => absurd rfl hne
  | d :: rest, _, hinv => by
      obtain ⟨_, h0, b0, hh0, hb0, hh2, hb0n, hblt⟩ := hinv d (by simp)
      cases rest with
      | nil =>
          refine ⟨h0, b0, ?_, ?_, hh2, hb0n, hblt⟩ <;>
            simp [JNum.jmaxList, JNum.jmax, hh0, hb0]
      | cons d2 rest2 =>
          obtain ⟨H2, B2, hH2, hB2, hH2b, hB2b, hBH2⟩ :=
            seq_dims_bounds (d2 :: rest2) (by simp)
              (fun x hx => hinv x (by simp [hx]))
          refine ⟨max h0 H2, max b0 B2, ?_, ?_, ?_, ?_, ?_⟩
          · simp only [JNum.jmaxList, List.map_cons, List.foldl_cons] at hH2 ⊢
            rw [foldl_jmax_pull (List.map Dims.height rest2)
              (JNum.jmax (JNum.jmax .negInf d.height) d2.height)]
            rw [foldl_jmax_pull (List.map Dims.height rest2)
              (JNum.jmax .negInf d2.height), jmax_negInf_left] at hH2
            rw [jmax_negInf_left, jmax_assoc, hH2, hh0]
            rfl
          · simp only [JNum.jmaxList, List.map_cons, List.foldl_cons] at hB2 ⊢
            rw [foldl_jmax_pull (List.map Dims.baseline rest2)
              (JNum.jmax (JNum.jmax .negInf d.baseline) d2.baseline)]
            rw [foldl_jmax_pull (List.map Dims.baseline rest2)
              (JNum.jmax .negInf d2.baseline), jmax_negInf_left] at hB2
            rw [jmax_negInf_left, jmax_assoc, hB2, hb0]
            rfl
          · omega
          · omega
          · omega

/-- The totalHeight fold of StackElement.layout over
invariant-satisfying dimensions stays integral and at least its
seed. -/
theorem stack_fold_bounds : ∀ (rest : List Dims) (a : Int),
    (∀ d ∈ rest, invD d) →
    ∃ t : Int, rest.foldl (fun (acc : JNum) (d : Dims) =>
        JNum.jadd (JNum.jadd acc (JNum.int 1)) d.height) (JNum.int a) =
      JNum.int t ∧ a ≤ t
  | [], a, _ => ⟨a, rfl, le_refl a⟩
  | d :: rest2, a, hinv => by
      obtain ⟨_, h0, b0, hh0, hb0, hh2, hb0n, hblt⟩ := hinv d (by simp)
      simp only [List.foldl_cons, hh0]
      obtain ⟨t, ht, hta⟩ := stack_fold_bounds rest2 (a + 1 + h0)
        (fun x hx => hinv x (by simp [hx]))
      refine ⟨t, ?_, by omega⟩
      simpa [JNum.jadd] using ht

mutual

/-- Layout succeeds on every shape whose containers are nonempty and
the computed dimensions satisfy the layout invariant. -/
theorem layout_inv (measure : String → Nat) :
    ∀ (s : Shape), shapeNonempty s = true →
      ∃ d, layout measure s = .ok d ∧ invD d
  | .textbox t k, _ => by
      refine ⟨textboxDims measure t, rfl, ?_, 2, 1, rfl, rfl, ?_, ?_, ?_⟩
      · simp only [textboxDims]
        omega
      all_goals omega
  | .sequence cs, hne => by
      simp only [shapeNonempty, Bool.and_eq_true] at hne
      obtain ⟨hcs, hlist⟩ := hne
      obtain ⟨ds, hds, hlen, hall⟩ := layoutList_inv measure cs
        ((shapeNonemptyList_iff cs).mp hlist)
      have hdsne : ds ≠ [] := by
        cases cs with
        | nil => simp at hcs
        | cons c r =>
            cases ds with
            | nil => simp at hlen
            | cons d r2 => simp
      obtain ⟨H, B, hH, hB, hH2, hB0, hBH⟩ := seq_dims_bounds ds hdsne hall
      have hlayeq : layout measure (.sequence cs) = .ok
          ⟨(ds.map Dims.width).sum + ((cs.length : Int) - 1) * 2,
            JNum.jmaxList (ds.map Dims.height),
            JNum.jmaxList (ds.map Dims.baseline)⟩ := by
        simp only [layout]
        rw [hds]
        rfl
      refine ⟨_, hlayeq, ?_⟩
      refine ⟨?_, H, B, by simpa using hH, by simpa using hB, hH2, hB0, hBH⟩
      simpa using layout_width_even measure (.sequence cs) _ hlayeq
  | .stack cs, hne => by
      simp only [shapeNonempty, Bool.and_eq_true] at hne
      obtain ⟨hcs, hlist⟩ := hne
      obtain ⟨ds, hds, hlen, hall⟩ := layoutList_inv measure cs
        ((shapeNonemptyList_iff cs).mp hlist)
      cases ds with
      | nil =>
          cases cs with
          | nil => simp at hcs
          | cons c r => simp at hlen
      | cons d0 rest =>
          obtain ⟨_, h0, b0, hh0, hb0, hh2, hb0n, hblt⟩ := hall d0 (by simp)
          obtain ⟨t, ht, hta⟩ := stack_fold_bounds rest h0
            (fun x hx => hall x (by simp [hx]))
          rw [← hh0] at ht
          have hlayeq : layout measure (.stack cs) = .ok
              ⟨2 + (rest.map Dims.width).foldl max d0.width + 2,
                JNum.jadd (JNum.int t) (JNum.jmod2 (JNum.int t)),
                d0.baseline⟩ := by
            simp only [layout]
            rw [hds]
            simp only [bind, Except.bind, ht]
          refine ⟨_, hlayeq, ?_⟩
          refine ⟨by simpa using layout_width_even measure (.stack cs) _ hlayeq,
            t + t.tmod 2, b0, ?_, ?_, ?_, ?_, ?_⟩
          · rfl
          · simpa using hb0
          · rw [Int.tmod_eq_emod (by omega) (by norm_num)]
            omega
          · omega
          · rw [Int.tmod_eq_emod (by omega) (by norm_num)]
            omega
  | .bypass c, hne => by
      obtain ⟨dc, hdc, hw, hc, bc, hhc, hbc, h2c, h0c, hltc⟩ :=
        layout_inv measure c hne
      have hlayeq : layout measure (.bypass c) = .ok
          ⟨dc.width + 4, dc.height.jadd (.int 1), dc.baseline.jadd (.int 1)⟩ := by
        simp only [layout]
        rw [hdc]
        rfl
      refine ⟨_, hlayeq, ?_⟩
      refine ⟨by dsimp only; omega, hc + 1, bc + 1, ?_, ?_, by omega, by omega, by omega⟩
      · simp [hhc, JNum.jadd]
      · simp [hbc, JNum.jadd]
  | .loop c, hne => by
      obtain ⟨dc, hdc, hw, hc, bc, hhc, hbc, h2c, h0c, hltc⟩ :=
        layout_inv measure c hne
      have hlayeq : layout measure (.loop c) = .ok
          ⟨dc.width + 4, dc.height.jadd (.int 1), dc.baseline.jadd (.int 1)⟩ := by
        simp only [layout]
        rw [hdc]
        rfl
      refine ⟨_, hlayeq, ?_⟩
      refine ⟨by dsimp only; omega, hc + 1, bc + 1, ?_, ?_, by omega, by omega, by omega⟩
      · simp [hhc, JNum.jadd]
      · simp [hbc, JNum.jadd]

/-- Layout succeeds elementwise on good child arrays. -/
theorem layoutList_inv (measure : String → Nat) :
    ∀ (cs : List Shape), (∀ x ∈ cs, shapeNonempty x = true) →
      ∃ ds, layoutList measure cs = .ok ds ∧ ds.length = cs.length ∧
        ∀ d ∈ ds, invD d
  | [], _ => ⟨[], rfl, rfl, by simp⟩
  | c :: rest, hall => by
      obtain ⟨dc, hdc, hinvc⟩ := layout_inv measure c (hall c (by simp))
      obtain ⟨ds, hds, hlen, hinds⟩ := layoutList_inv measure rest
        (fun x hx => hall x (by simp [hx]))
      refine ⟨dc :: ds, ?_, by simp [hlen], ?_⟩
      · simp only [layoutList]
        rw [hdc, hds]
        simp only [bind, Except.bind]
      · intro d hd
        rcases List.mem_cons.mp hd with rfl | hd2
        · exact hinvc
        · exact hinds d hd2

end


/-- Map lookup finds only stored entries. -/
theorem mapGet_mem : ∀ (m : List (String × ParsedRule)) (k : String)
    (r : ParsedRule), mapGet m k = some r → (k, r) ∈ m
  | [], k, r, h => by simp [mapGet] at h
  | (k0, v0) :: rest, k, r, h => by
      simp only [mapGet] at h
      by_cases hk : k0 = k
      · rw [if_pos hk] at h
        simp only [Option.some.injEq] at h
        subst hk
        subst h
        simp
      · rw [if_neg hk] at h
        exact List.mem_cons_of_mem _ (mapGet_mem rest k r h)

/-- Map.set preserves a per-entry property that the new value also
enjoys. -/
theorem mapSet_forall (P : ParsedRule → Prop) :
    ∀ (m : List (String × ParsedRule)) (k : String) (v : ParsedRule),
    (∀ e ∈ m, P e.2) → P v → ∀ e ∈ mapSet m k v, P e.2
  | [], k, v, _, hv, e, he => by
      simp only [mapSet, List.mem_singleton] at he
      subst he
      exact hv
  | (k0, v0) :: rest, k, v, hall, hv, e, he => by
      simp only [mapSet] at he
      by_cases hk : k0 = k
      · rw [if_pos hk] at he
        rcases List.mem_cons.mp he with rfl | h2
        · exact hv
        · exact hall e (List.mem_cons_of_mem _ h2)
      · rw [if_neg hk] at he
        rcases List.mem_cons.mp he with rfl | h2
        · exact hall _ (by simp)
        · exact mapSet_forall P rest k v
            (fun x hx => hall x (List.mem_cons_of_mem _ hx)) hv e h2

/-- Every rule that the stream scanner stores carries a well-formed
AST, because every stored expression comes out of
parseTokenSequence. -/
theorem parseTokenStreamGo_wf (content : String) :
    ∀ (fuel : Nat) (ts : List Token) (rules m : List (String × ParsedRule)),
    (∀ e ∈ rules, astWf e.2.expression = true) →
    parseTokenStreamGo content fuel ts rules = .ok m →
    ∀ e ∈ m, astWf e.2.expression = true
  | 0, _, _, _, _, h => Except.noConfusion h
  | fuel + 1, [], rules, m, hall, h => by
      simp only [parseTokenStreamGo, Except.ok.injEq] at h
      subst h
      exact hall
  | fuel + 1, t1 :: ts, rules, m, hall, h => by
      cases ts with
      | nil =>
          simp only [parseTokenStreamGo, Except.ok.injEq] at h
          subst h
          exact hall
      | cons t2 rest =>
          simp only [parseTokenStreamGo] at h
          by_cases hc : t1.type = .identifier ∧ t2.type = .assign
          · rw [if_pos hc] at h
            cases hx : parseTokenSequence (extractRuleTokens rest).1 with
            | error err =>
                rw [hx] at h
                exact Except.noConfusion h
            | ok e =>
                rw [hx] at h
                exact parseTokenStreamGo_wf content fuel _ _ m
                  (mapSet_forall (fun pr => astWf pr.expression = true)
                    rules t1.value _ hall
                    (parseTokenSequence_wf _ e hx)) h
          · rw [if_neg hc] at h
            exact parseTokenStreamGo_wf content fuel (t2 :: rest) rules m hall h

mutual

/-- Container nonemptiness is hereditary: it holds at every node of a
nonempty shape tree. -/
theorem subShapes_good : ∀ (s : Shape), shapeNonempty s = true →
    ∀ t ∈ subShapes s, shapeNonempty t = true
  | .textbox tx k, h, t, ht => by
      simp only [subShapes, List.mem_singleton] at ht
      subst ht
      rfl
  | .sequence cs, h, t, ht => by
      simp only [subShapes, List.mem_cons] at ht
      rcases ht with rfl | ht2
      · exact h
      · simp only [shapeNonempty, Bool.and_eq_true] at h
        exact subShapesList_good cs ((shapeNonemptyList_iff cs).mp h.2) t ht2
  | .stack cs, h, t, ht => by
      simp only [subShapes, List.mem_cons] at ht
      rcases ht with rfl | ht2
      · exact h
      · simp only [shapeNonempty, Bool.and_eq_true] at h
        exact subShapesList_good cs ((shapeNonemptyList_iff cs).mp h.2) t ht2
  | .bypass c, h, t, ht => by
      simp only [subShapes, List.mem_cons] at ht
      rcases ht with rfl | ht2
      · exact h
      · exact subShapes_good c h t ht2
  | .loop c, h, t, ht => by
      simp only [subShapes, List.mem_cons] at ht
      rcases ht with rfl | ht2
      · exact h
      · exact subShapes_good c h t ht2

/-- Hereditary nonemptiness over a forest of shape trees. -/
theorem subShapesList_good : ∀ (cs : List Shape),
    (∀ x ∈ cs, shapeNonempty x = true) →
    ∀ t ∈ subShapesList cs, shapeNonempty t = true
  | [], _, t, ht => by simp [subShapesList] at ht
  | c :: rest, hall, t, ht => by
      simp only [subShapesList, List.mem_append] at ht
      rcases ht with h1 | h2
      · exact subShapes_good c (hall c (by simp)) t h1
      · exact subShapesList_good rest (fun x hx => hall x (by simp [hx])) t h2

end

/-- C2: every shape tree the transformer builds from a parsed rule
satisfies the layout invariant at every node once layout succeeds on
it: each node lays out successfully with an even width, an integral
height of at least 2 and an integral baseline within the height. -/
theorem layout_pipeline_invariants (content name : String)
    (measure : String → Nat) (m : List (String × ParsedRule))
    (r : ParsedRule) (s : Shape) (d : Dims)
    (hp : parse content = .ok m) (hg : mapGet m name = some r)
    (htr : transform r.expression = .ok s)
    (hl : layout measure s = .ok d) :
    ∀ t ∈ subShapes s, ∃ dt, layout measure t = .ok dt ∧ invD dt := by
  have hwfm : ∀ e ∈ m, astWf e.2.expression = true := by
    unfold parse at hp
    cases hx : tokenize content with
    | error e =>
        rw [hx] at hp
        exact Except.noConfusion hp
    | ok ts =>
        rw [hx] at hp
        dsimp only at hp
        cases hy : parseTokenStream ts content with
        | error e =>
            rw [hy] at hp
            exact Except.noConfusion hp
        | ok rules =>
            rw [hy] at hp
            dsimp only at hp
            simp only [Except.ok.injEq] at hp
            subst hp
            exact parseTokenStreamGo_wf content (ts.length + 1) ts [] rules
              (by simp) hy
  have hwf : astWf r.expression = true := hwfm (name, r) (mapGet_mem m name r hg)
  have hgood : shapeNonempty s = true := transform_good r.expression s hwf htr
  intro t ht
  exact layout_inv measure t (subShapes_good s hgood t ht)

/-- The pipeline invariant at the concrete grammar a = b c, measured
by string length: both textboxes and the enclosing sequence lay out
with invariant dimensions. -/
theorem layout_pipeline_invariants_witness :
    parse "a = b c" = .ok [("a", ⟨"a", "b c",
      .sequence [.nonterminal "b", .nonterminal "c"]⟩)] ∧
    ∀ t ∈ subShapes (.sequence
      [.textbox "b" .nonterminal, .textbox "c" .nonterminal]),
      ∃ dt, layout String.length t = .ok dt ∧ invD dt :=
  ⟨rfl,
    layout_pipeline_invariants "a = b c" "a" String.length
      [("a", ⟨"a", "b c", .sequence [.nonterminal "b", .nonterminal "c"]⟩)]
      ⟨"a", "b c", .sequence [.nonterminal "b", .nonterminal "c"]⟩
      (.sequence [.textbox "b" .nonterminal, .textbox "c" .nonterminal])
      ⟨10, .int 2, .int 1⟩ rfl rfl rfl rfl⟩

end Railroad
